import Mathlib

/-!
# macos-menu-countdown: the time quantizer, the countdown tick and the timer registry

A shallow embedding of `main.go`.

* Go's `int` is the 64-bit two's-complement integer of the darwin targets
  the program builds for. A Go `int` is an `Int` here, and every operation
  of the source that can leave the 64-bit range is wrapped by `wrap64`.
  Go's `/` and `%` truncate toward zero: they are `Int.tdiv` and `Int.tmod`.
* A Go `string` is the list of its code points (`GoString`).
* The unbounded `for` loops of the source are run with `2 ^ 64` units of
  fuel, one per value of an `int`: the loop variable moves by one at each
  round, so a loop that has not returned by then has seen every value and
  never returns. Such a function answers `none` exactly when the source
  loops forever.
* What the source gets from the operating system is an argument of the
  model: the clock reading of `getRemainingTime` and the answer of `ps` in
  `isPidRunning`.
-/

namespace MenuCountdown

/-! ## Machine integers -/

/-- The largest Go `int`. -/
def maxInt : Int := 2 ^ 63 - 1

/-- The smallest Go `int`. -/
def minInt : Int := -(2 ^ 63)

/-- Two's-complement wrap-around of a result to the 64-bit range of `int`. -/
def wrap64 (x : Int) : Int := (x + 2 ^ 63) % 2 ^ 64 - 2 ^ 63

/-- The values a Go `int` can hold. -/
def InInt (x : Int) : Prop := minInt ≤ x ∧ x ≤ maxInt

instance (x : Int) : Decidable (InInt x) := by
  unfold InInt
  exact inferInstance

/-- Fuel of the unbounded loops: the number of values of an `int`. -/
def loopFuel : Nat := 2 ^ 64

/-! ## Strings -/

/-- A Go string, as the list of its code points. -/
abbrev GoString := List Char

/-- Go's `unicode.IsSpace`: the code points with the White_Space property. -/
def isSpace (c : Char) : Bool :=
  let n := c.toNat
  (0x09 ≤ n && n ≤ 0x0D) || n == 0x20 || n == 0x85 || n == 0xA0 || n == 0x1680 ||
    (0x2000 ≤ n && n ≤ 0x200A) || n == 0x2028 || n == 0x2029 || n == 0x202F ||
    n == 0x205F || n == 0x3000

/-- Go's `strings.TrimSpace`: the leading, then the trailing white space is cut. -/
def TrimSpace (s : GoString) : GoString :=
  (s.dropWhile isSpace).rdropWhile isSpace

/-- Go's `strings.Split(s, sep)` for a separator of one character. -/
def Split : GoString → Char → List GoString
  | [], _ => [[]]
  | c :: cs, sep =>
    if c = sep then [] :: Split cs sep
    else
      match Split cs sep with
      | [] => [[c]]
      | part :: parts => (c :: part) :: parts

/-- Go's `strings.HasPrefix`. -/
def HasPrefix : GoString → GoString → Bool
  | _, [] => true
  | [], _ :: _ => false
  | c :: s, d :: pre => c == d && HasPrefix s pre

/-- Go's `strings.Contains(s, sep)` for a separator of one character. -/
def Contains (s : GoString) (sep : Char) : Bool := s.elem sep

/-- Go's `len` of a string: its length in UTF-8 bytes. -/
def len (s : GoString) : Nat := (s.map Char.utf8Size).sum

/-- Go's `strconv.Itoa`, also the verb `%d` of `fmt.Sprintf`. -/
def Itoa (n : Int) : GoString :=
  if n < 0 then '-' :: Nat.toDigits 10 n.natAbs else Nat.toDigits 10 n.natAbs

/-- The verb `%0.2d` of `fmt.Sprintf`: a sign when negative, then the
magnitude on two digits at least (the precision; the flag `0` is ignored
when a precision is given). -/
def Sprintf02d (n : Int) : GoString :=
  let digits := Nat.toDigits 10 n.natAbs
  let padded := List.replicate (2 - digits.length) '0' ++ digits
  if n < 0 then '-' :: padded else padded

/-- Go's `strconv.Atoi`: an optional sign, then decimal digits only, and a
value that fits an `int`; `none` is the error. -/
def Atoi (s : GoString) : Option Int :=
  let negative := s.head? == some '-'
  let digits := if s.head? == some '-' || s.head? == some '+' then s.tail else s
  if digits.isEmpty || !digits.all Char.isDigit then none
  else
    let magnitude : Int := digits.foldl (fun acc c => acc * 10 + ((c.toNat : Int) - 48)) 0
    let value := if negative then -magnitude else magnitude
    if decide (InInt value) then some value else none

/-! ## The time quantizer -/

/-- The constant `secondsInMinute`. -/
def secondsInMinute : Int := 60

/-- The `for number != 0` loop of `sumDigits`, which drops one decimal digit
of `number` per round into `sumResult`. -/
def sumDigitsLoop : Nat → Int → Int → Int
  | 0, _, sumResult => sumResult
  | fuel + 1, number, sumResult =>
    if number ≠ 0 then
      sumDigitsLoop fuel (Int.tdiv number 10) (sumResult + Int.tmod number 10)
    else sumResult

/-- The recursion of `sumDigits` on a digit sum above 9. -/
def sumDigitsRec : Nat → Int → Int
  | 0, number => sumDigitsLoop number.natAbs number 0
  | fuel + 1, number =>
    let sumResult := sumDigitsLoop number.natAbs number 0
    if sumResult > 9 then sumDigitsRec fuel sumResult else sumResult

/-- The function `sumDigits`. The fuel `|number|` is never used up: the loop
divides `number` by ten at each round and the recursion goes to a smaller
number (`sumDigitsLoop_fuel`, `sumDigits_le_nine`). -/
def sumDigits (number : Int) : Int := sumDigitsRec number.natAbs number

/-- The function `isFine`. -/
def isFine (inp : Int) : Bool := Int.tmod inp 3 == 0

/-- The test of `nearestDisplayFine` on one value of `current`. -/
def fineAt (current : Int) : Bool :=
  isFine (sumDigits (Int.tdiv current secondsInMinute) +
    sumDigits (Int.tmod current secondsInMinute))

/-- The `for` loop of `nearestDisplayFine`. -/
def nearestDisplayFineLoop : Nat → Int → Option Int
  | 0, _ => none
  | fuel + 1, current =>
    let m := Int.tdiv current secondsInMinute
    let s := Int.tmod current secondsInMinute
    let test := sumDigits m + sumDigits s
    if isFine test then some (m * secondsInMinute + s)
    else nearestDisplayFineLoop fuel (wrap64 (current + 1))

/-- The function `nearestDisplayFine`; `none` when the loop never returns. -/
def nearestDisplayFine (totalSeconds : Int) : Option Int :=
  nearestDisplayFineLoop loopFuel totalSeconds

/-- The `for !isFine(curr)` loop of `nearestFineDown`. -/
def nearestFineDownLoop : Nat → Int → Option Int
  | 0, _ => none
  | fuel + 1, curr =>
    if !isFine curr then nearestFineDownLoop fuel (wrap64 (curr - 1)) else some curr

/-- The function `nearestFineDown`; `none` when the loop never returns. -/
def nearestFineDown (inp : Int) : Option Int := nearestFineDownLoop loopFuel inp

/-- The function `totalSecondsToString`; `none` when a loop never returns. -/
def totalSecondsToString (totalSeconds : Int) : Option GoString :=
  match nearestDisplayFine totalSeconds with
  | none => none
  | some inp =>
    let m := Int.tdiv inp secondsInMinute
    let s := Int.tmod inp secondsInMinute
    let out := Itoa m ++ Sprintf02d s
    if m > 9 then
      match nearestFineDown m with
      | none => none
      | some mm =>
        let mm := if mm ≤ 9 then 12 else mm
        some (Itoa mm ++ ['°'])
    else if len out < 3 then some ('0' :: out)
    else some out

/-- The function `toString`. -/
def toString (minutes seconds : Int) : Option GoString :=
  totalSecondsToString (wrap64 (wrap64 (minutes * secondsInMinute) + seconds))

/-! ## The countdown value -/

/-- The type `countdown`. -/
structure countdown where
  minutes : Int
  seconds : Int
  deriving DecidableEq

/-- The method `isOverTime`. -/
def countdown.isOverTime (c : countdown) : Bool :=
  decide (c.minutes ≤ 0) && decide (c.seconds ≤ 0)

/-- The method `flipForOverTime`; the receiver is a pointer in the source,
the flipped value is returned here. -/
def countdown.flipForOverTime (c : countdown) : countdown :=
  let minutes := if c.minutes < 0 then wrap64 (-c.minutes) else c.minutes
  let seconds := if c.seconds < 0 then wrap64 (-c.seconds) else c.seconds
  { minutes := minutes, seconds := seconds }

/-- The function `getRemainingTime`, from the local `total` on: `total` is
the whole number of seconds between the clock and the end time, the `int64`
the source converts `difference.Seconds()` to. -/
def getRemainingTime (total : Int) : countdown :=
  let minutes := Int.tdiv total secondsInMinute
  let seconds := Int.tmod total secondsInMinute
  { minutes := minutes, seconds := seconds }

/-! ## The timer registry -/

/-- The body of the `for _, line := range lines` loop of
`getNewTimersString`: `output` after one more `line`. -/
def timersLine (isPidRunning : GoString → Bool) (pidS : GoString)
    (output line : GoString) : GoString :=
  if !HasPrefix line (pidS ++ [' ']) then
    let linePid := (Split line ' ').headD []
    if isPidRunning linePid then output ++ (line ++ ['\n']) else output
  else output

/-- The function `getNewTimersString`. Its first argument stands for
`isPidRunning`, which asks `ps` whether a process is alive. -/
def getNewTimersString (isPidRunning : GoString → Bool) (current : GoString) (pid : Int)
    (currentTime : GoString) (writeOwnPid : Bool) : GoString :=
  let pidS := Itoa pid
  let lines := Split (TrimSpace current) '\n'
  let output := lines.foldl (timersLine isPidRunning pidS) []
  let output := if writeOwnPid then output ++ (pidS ++ [' '] ++ currentTime) else output
  TrimSpace output

/-! ## The tick of `countDown` -/

/-- What one round of the `for` loop of `countDown` keeps for the next: the
local `isOverTime` and the global `lastCurrentTime`. -/
structure TickState where
  isOverTime : Bool
  lastCurrentTime : GoString
  deriving DecidableEq

/-- What one round of the loop does: the title it sets, the total seconds it
hands to `totalSecondsToString` through `toString`, whether it calls
`writeToTimersFile(title, true)`, and whether it starts `timerIsUp`. -/
structure TickResult where
  state : TickState
  title : GoString
  quantized : Int
  wroteTimersFile : Bool
  launchedTimerIsUp : Bool
  deriving DecidableEq

/-- The `if isOverTime` statement of the loop: the reading as it is after
the statement, and `menuString`; `none` when `toString` never returns. -/
def menuString (isOverTime : Bool) (remaining : countdown) : Option (countdown × GoString) :=
  if isOverTime then
    let remaining := remaining.flipForOverTime
    match toString remaining.minutes remaining.seconds with
    | none => none
    | some str =>
      if remaining.seconds ≥ 1 then some (remaining, '-' :: str)
      else some (remaining, str)
  else
    match toString remaining.minutes remaining.seconds with
    | none => none
    | some str => some (remaining, str)

/-- The total seconds that `toString` computes from its arguments and passes
to `totalSecondsToString`, in the round of the loop. -/
def quantizerInput (isOverTime : Bool) (remaining : countdown) : Int :=
  let shown := if isOverTime then remaining.flipForOverTime else remaining
  wrap64 (wrap64 (shown.minutes * secondsInMinute) + shown.seconds)

/-- One round of the `for` loop of `countDown`, on the reading `remaining`
that `getRemainingTime` gave it. -/
def countDownTick (timerName : GoString) (st : TickState) (remaining : countdown) :
    Option TickResult :=
  match menuString st.isOverTime remaining with
  | none => none
  | some (remaining', menuString) =>
    let title := if timerName ≠ [] then timerName ++ [' '] ++ menuString else menuString
    let wrote := decide (st.lastCurrentTime ≠ title)
    let launch := remaining'.isOverTime && !st.isOverTime
    some
      { state := { isOverTime := st.isOverTime || launch, lastCurrentTime := title }
        title := title
        quantized := quantizerInput st.isOverTime remaining
        wroteTimersFile := wrote
        launchedTimerIsUp := launch }

/-- The rounds of the loop of `countDown` on successive readings. -/
def countDownRun (timerName : GoString) : TickState → List countdown → Option (List TickResult)
  | _, [] => some []
  | st, remaining :: rest =>
    match countDownTick timerName st remaining with
    | none => none
    | some result =>
      match countDownRun timerName result.state rest with
      | none => none
      | some results => some (result :: results)

/-- The state in which `countDown` enters its loop: `isOverTime := false`
and the initial value of the global `lastCurrentTime`. -/
def initialTickState : TickState := { isOverTime := false, lastCurrentTime := [] }

/-! ## The duration argument -/

/-- The function `safeAtoi`; `none` is the panic. -/
def safeAtoi (s : GoString) : Option Int :=
  if s = [] then some 0 else Atoi s

/-- The function `parseStringCountToSeconds`; `none` when no value comes
back: a panic of `safeAtoi`, the exit with status 1 on a bad format, or a
quantizer that never returns. -/
def parseStringCountToSeconds (s : GoString) : Option Int :=
  if Contains s ',' then
    let parts := Split s ','
    if parts.length = 2 then
      match safeAtoi (parts.getD 0 []), safeAtoi (parts.getD 1 []) with
      | some minutes, some seconds =>
        nearestDisplayFine (wrap64 (wrap64 (minutes * secondsInMinute) + seconds))
      | _, _ => none
    else none
  else
    match safeAtoi s with
    | some minutes => nearestDisplayFine (wrap64 (minutes * secondsInMinute))
    | none => none

/-! ## The display the specification describes -/

/-- The display of a fine value of `m` minutes and `s` seconds in the words
of the specification: above 9 minutes the largest multiple of 3 not above
`m`, replaced by 12 when it is at most 9, followed by the degree sign;
otherwise the digit `m` followed by the two digits of `s`. -/
def displaySpec (m s : Int) : GoString :=
  if m > 9 then
    let k := 3 * (m / 3)
    Itoa (if k ≤ 9 then 12 else k) ++ ['°']
  else [Nat.digitChar m.toNat, Nat.digitChar (s / 10).toNat, Nat.digitChar (s % 10).toNat]

/-! ## The registry the specification describes -/

/-- The text made of the given lines, each ended by a newline. -/
def terminated (lines : List GoString) : GoString :=
  (lines.map (fun line => line ++ ['\n'])).flatten

/-- The process identity of a registry line: what stands before its first
space. -/
def leadingToken (line : GoString) : GoString := line.takeWhile (fun c => c != ' ')

/-- Whether a registry line survives a rewrite by the process `pid`, as the
loop of `getNewTimersString` tests it: the line does not start with the
identity of `pid` followed by a space, and the process of its leading token
is reported alive. -/
def survives (isPidRunning : GoString → Bool) (pid : Int) (line : GoString) : Bool :=
  !HasPrefix line (Itoa pid ++ [' ']) && isPidRunning (leadingToken line)

/-- The lines of the trimmed registry content that survive a rewrite by the
process `pid`, in their order. -/
def survivors (isPidRunning : GoString → Bool) (current : GoString) (pid : Int) :
    List GoString :=
  (Split (TrimSpace current) '\n').filter (survives isPidRunning pid)

/-- Whether a registry line belongs to the process `pid`: its process
identity, the leading token, is the identity of `pid`. -/
def belongsTo (pid : Int) (line : GoString) : Bool := leadingToken line == Itoa pid

/-- The entries of live other processes: the lines of the trimmed registry
content that do not belong to `pid` and whose leading token is reported
alive, in their order. -/
def liveOthers (isPidRunning : GoString → Bool) (current : GoString) (pid : Int) :
    List GoString :=
  (Split (TrimSpace current) '\n').filter
    (fun line => !belongsTo pid line && isPidRunning (leadingToken line))

/-- The lines of the registry after `upsertSelf(text)` by the process `pid`,
in the words of the specification: the entries of live other processes, then
the line of `pid`, its identity, a space and the text. -/
def upsertSpec (isPidRunning : GoString → Bool) (current : GoString) (pid : Int)
    (text : GoString) : List GoString :=
  liveOthers isPidRunning current pid ++ [Itoa pid ++ [' '] ++ text]

/-- A liveness answer for the scenarios: the processes whose identities are
listed are alive, no other is. -/
def aliveOnly (pids : List GoString) (tok : GoString) : Bool := pids.contains tok

/-- The number of lines of a registry content that the token `tok` heads. -/
def linesHeadedBy (content tok : GoString) : Nat :=
  ((Split content '\n').filter (fun line => leadingToken line == tok)).length

/-! ## Truncated division -/

theorem tdiv_eq_ite (a b : Int) (hb : 0 < b) :
    a.tdiv b = if 0 ≤ a then a / b else -((-a) / b) := by
  by_cases h : 0 ≤ a
  · simp [h, Int.tdiv_eq_ediv h hb.le]
  · have h1 : (0 : Int) ≤ -a := by omega
    have h2 := Int.neg_tdiv (-a) b
    rw [neg_neg, Int.tdiv_eq_ediv h1 hb.le] at h2
    simp [h, h2]

theorem tmod_eq_ite (a b : Int) (hb : 0 < b) :
    a.tmod b = if 0 ≤ a then a % b else -((-a) % b) := by
  have h1 := Int.tmod_add_tdiv a b
  have h2 := tdiv_eq_ite a b hb
  by_cases h : 0 ≤ a
  · simp only [h, if_true] at h2 ⊢
    have h3 := Int.emod_add_ediv a b
    rw [h2] at h1
    linarith
  · simp only [h, if_false] at h2 ⊢
    have h3 := Int.emod_add_ediv (-a) b
    rw [h2] at h1
    linarith

theorem tdiv60 (a : Int) :
    a.tdiv secondsInMinute = if 0 ≤ a then a / 60 else -((-a) / 60) :=
  tdiv_eq_ite a 60 (by norm_num)

theorem tmod60 (a : Int) :
    a.tmod secondsInMinute = if 0 ≤ a then a % 60 else -((-a) % 60) :=
  tmod_eq_ite a 60 (by norm_num)

theorem isFine_iff (x : Int) : isFine x = true ↔ (3 : Int) ∣ x := by
  unfold isFine
  rw [beq_iff_eq]
  exact ⟨Int.dvd_of_tmod_eq_zero, Int.tmod_eq_zero_of_dvd⟩

/-! ## The digit sum -/

theorem natAbs_tdiv_ten_lt (n : Int) (h : n ≠ 0) : (n.tdiv 10).natAbs < n.natAbs := by
  rw [Int.natAbs_tdiv]
  have h1 : 0 < n.natAbs := Int.natAbs_pos.mpr h
  exact Nat.div_lt_self h1 (by decide)

/-- The loop of `sumDigits` keeps `number + sumResult` modulo 3. -/
theorem sumDigitsLoop_dvd (fuel : Nat) : ∀ (number sumResult : Int), number.natAbs ≤ fuel →
    (3 : Int) ∣ sumDigitsLoop fuel number sumResult - (number + sumResult) := by
  induction fuel with
  | zero =>
    intro number sumResult h
    have h0 : number = 0 := Int.natAbs_eq_zero.mp (Nat.le_zero.mp h)
    simp [sumDigitsLoop, h0]
  | succ fuel ih =>
    intro number sumResult h
    unfold sumDigitsLoop
    by_cases h0 : number = 0
    · simp [h0]
    · rw [if_pos h0]
      have hlt := natAbs_tdiv_ten_lt number h0
      have h1 := ih (number.tdiv 10) (sumResult + number.tmod 10) (by omega)
      have h2 := Int.tmod_add_tdiv number 10
      obtain ⟨k, hk⟩ := h1
      exact ⟨k - 3 * number.tdiv 10, by linarith⟩

/-- With fuel `|number|` the loop of `sumDigits` ends because `number` is 0:
any two amounts of fuel from `|number|` on give the same sum. -/
theorem sumDigitsLoop_fuel (fuel : Nat) : ∀ (fuel' : Nat) (number sumResult : Int),
    number.natAbs ≤ fuel → number.natAbs ≤ fuel' →
    sumDigitsLoop fuel number sumResult = sumDigitsLoop fuel' number sumResult := by
  induction fuel with
  | zero =>
    intro fuel' number sumResult h _
    have h0 : number = 0 := Int.natAbs_eq_zero.mp (Nat.le_zero.mp h)
    subst h0
    cases fuel' <;> simp [sumDigitsLoop]
  | succ fuel ih =>
    intro fuel' number sumResult h h'
    by_cases h0 : number = 0
    · subst h0
      cases fuel' <;> simp [sumDigitsLoop]
    · have hlt := natAbs_tdiv_ten_lt number h0
      cases fuel' with
      | zero =>
        exact absurd (Int.natAbs_eq_zero.mp (Nat.le_zero.mp h')) h0
      | succ fuel' =>
        unfold sumDigitsLoop
        rw [if_pos h0, if_pos h0]
        exact ih fuel' _ _ (by omega) (by omega)

theorem sumDigitsRec_dvd (fuel : Nat) : ∀ number : Int,
    (3 : Int) ∣ sumDigitsRec fuel number - number := by
  induction fuel with
  | zero =>
    intro number
    have h := sumDigitsLoop_dvd number.natAbs number 0 le_rfl
    simpa [sumDigitsRec] using h
  | succ fuel ih =>
    intro number
    have h := sumDigitsLoop_dvd number.natAbs number 0 le_rfl
    unfold sumDigitsRec
    simp only
    split
    · have h1 := ih (sumDigitsLoop number.natAbs number 0)
      have h3 := Int.dvd_add h1 h
      have e : sumDigitsRec fuel (sumDigitsLoop number.natAbs number 0) - number =
          sumDigitsRec fuel (sumDigitsLoop number.natAbs number 0) -
            sumDigitsLoop number.natAbs number 0 +
            (sumDigitsLoop number.natAbs number 0 - (number + 0)) := by ring
      rw [e]
      exact h3
    · simpa using h

/-- The digit sum of a number is the number modulo 3. -/
theorem sumDigits_dvd (number : Int) : (3 : Int) ∣ sumDigits number - number :=
  sumDigitsRec_dvd _ number

/-- The test of `nearestDisplayFine`, as a divisibility. -/
theorem fineAt_iff (c : Int) :
    fineAt c = true ↔ (3 : Int) ∣ c.tdiv secondsInMinute + c.tmod secondsInMinute := by
  unfold fineAt
  rw [isFine_iff]
  have h1 := sumDigits_dvd (c.tdiv secondsInMinute)
  have h2 := sumDigits_dvd (c.tmod secondsInMinute)
  constructor
  · intro h
    have h3 := Int.dvd_sub h (Int.dvd_add h1 h2)
    have e : sumDigits (c.tdiv secondsInMinute) + sumDigits (c.tmod secondsInMinute) -
        (sumDigits (c.tdiv secondsInMinute) - c.tdiv secondsInMinute +
          (sumDigits (c.tmod secondsInMinute) - c.tmod secondsInMinute)) =
        c.tdiv secondsInMinute + c.tmod secondsInMinute := by ring
    rwa [e] at h3
  · intro h
    have h3 := Int.dvd_add h (Int.dvd_add h1 h2)
    have e : c.tdiv secondsInMinute + c.tmod secondsInMinute +
        (sumDigits (c.tdiv secondsInMinute) - c.tdiv secondsInMinute +
          (sumDigits (c.tmod secondsInMinute) - c.tmod secondsInMinute)) =
        sumDigits (c.tdiv secondsInMinute) + sumDigits (c.tmod secondsInMinute) := by ring
    rwa [e] at h3

/-- The test of `nearestDisplayFine`, in the arithmetic of `/` and `%`. -/
theorem fineAt_iff_emod (c : Int) :
    fineAt c = true ↔
      if 0 ≤ c then (c / 60 + c % 60) % 3 = 0 else ((-c) / 60 + (-c) % 60) % 3 = 0 := by
  rw [fineAt_iff, tdiv60, tmod60]
  split <;> omega

/-- On a number that is not negative the loop of `sumDigits` adds between
0 and `number` to the sum, less than `number` from 10 on; on a negative
number it adds nothing positive. -/
theorem sumDigitsLoop_bounds (fuel : Nat) : ∀ (number sumResult : Int), number.natAbs ≤ fuel →
    (0 ≤ number → sumResult ≤ sumDigitsLoop fuel number sumResult ∧
      sumDigitsLoop fuel number sumResult ≤ sumResult + number ∧
      (10 ≤ number → sumDigitsLoop fuel number sumResult < sumResult + number)) ∧
    (number ≤ 0 → sumDigitsLoop fuel number sumResult ≤ sumResult) := by
  induction fuel with
  | zero =>
    intro number sumResult h
    have h0 : number = 0 := Int.natAbs_eq_zero.mp (Nat.le_zero.mp h)
    subst h0
    simp [sumDigitsLoop]
  | succ fuel ih =>
    intro number sumResult h
    by_cases h0 : number = 0
    · subst h0
      simp [sumDigitsLoop]
    · have hlt := natAbs_tdiv_ten_lt number h0
      have hq := tdiv_eq_ite number 10 (by norm_num)
      have hr := tmod_eq_ite number 10 (by norm_num)
      have ih1 := ih (number.tdiv 10) (sumResult + number.tmod 10) (by omega)
      unfold sumDigitsLoop
      rw [if_pos h0]
      constructor
      · intro hn
        rw [if_pos hn] at hq hr
        have hq0 : 0 ≤ number.tdiv 10 := by omega
        obtain ⟨a, b, c⟩ := ih1.1 hq0
        refine ⟨by omega, by omega, ?_⟩
        intro h10
        by_cases h100 : 10 ≤ number.tdiv 10
        · have := c h100
          omega
        · omega
      · intro hn
        have hneg : ¬ 0 ≤ number := by omega
        rw [if_neg hneg] at hq hr
        have hq0 : number.tdiv 10 ≤ 0 := by omega
        have := ih1.2 hq0
        omega

theorem sumDigitsRec_le_nine (fuel : Nat) : ∀ number : Int, number.natAbs ≤ fuel →
    sumDigitsRec fuel number ≤ 9 := by
  induction fuel with
  | zero =>
    intro number h
    have h0 : number = 0 := Int.natAbs_eq_zero.mp (Nat.le_zero.mp h)
    subst h0
    simp [sumDigitsRec, sumDigitsLoop]
  | succ fuel ih =>
    intro number h
    unfold sumDigitsRec
    simp only
    split
    · rename_i h9
      have hb := sumDigitsLoop_bounds number.natAbs number 0 le_rfl
      apply ih
      by_cases hn : 0 ≤ number
      · obtain ⟨a, b, c⟩ := hb.1 hn
        by_cases h10 : 10 ≤ number
        · have := c h10
          omega
        · omega
      · have := hb.2 (by omega)
        omega
    · omega

/-- The recursion of `sumDigits` ends within its fuel: the value returned is
at most 9, which is where the source stops recursing. -/
theorem sumDigits_le_nine (number : Int) : sumDigits number ≤ 9 :=
  sumDigitsRec_le_nine _ number le_rfl

/-! ## Wrap-around -/

theorem wrap64_of_inInt (x : Int) (h : InInt x) : wrap64 x = x := by
  obtain ⟨h1, h2⟩ := h
  unfold minInt at h1
  unfold maxInt at h2
  unfold wrap64
  omega

theorem inInt_wrap64 (x : Int) : InInt (wrap64 x) := by
  unfold InInt minInt maxInt wrap64
  omega

theorem tdiv_mul_add_tmod (c : Int) :
    c.tdiv secondsInMinute * secondsInMinute + c.tmod secondsInMinute = c := by
  have h := Int.tmod_add_tdiv c secondsInMinute
  linarith

/-! ## The forward scan of `nearestDisplayFine` -/

theorem nearestDisplayFineLoop_succ (fuel : Nat) (c : Int) :
    nearestDisplayFineLoop (fuel + 1) c =
      if fineAt c then some c else nearestDisplayFineLoop fuel (wrap64 (c + 1)) := by
  rw [nearestDisplayFineLoop]
  simp only [fineAt, tdiv_mul_add_tmod]

/-- A fine value `u` at or above `current`, reached within the fuel and
without leaving the range of `int`, makes the scan return the first fine
value from `current` on. -/
theorem nearestDisplayFineLoop_found (fuel : Nat) : ∀ (c u : Int), c ≤ u → u ≤ maxInt →
    minInt ≤ c → fineAt u = true → (u - c).toNat < fuel →
    ∃ r, nearestDisplayFineLoop fuel c = some r ∧ c ≤ r ∧ r ≤ u ∧ fineAt r = true ∧
      ∀ v, c ≤ v → v < r → fineAt v = false := by
  induction fuel with
  | zero => intro c u _ _ _ _ h; omega
  | succ fuel ih =>
    intro c u hcu hu hc hfine hfuel
    rw [nearestDisplayFineLoop_succ]
    by_cases hfc : fineAt c = true
    · rw [if_pos hfc]
      exact ⟨c, rfl, le_rfl, hcu, hfc, fun v h1 h2 => by omega⟩
    · rw [if_neg hfc]
      have hne : c ≠ u := fun e => hfc (e ▸ hfine)
      have hw : wrap64 (c + 1) = c + 1 := wrap64_of_inInt _ ⟨by omega, by omega⟩
      rw [hw]
      obtain ⟨r, h1, h2, h3, h4, h5⟩ := ih (c + 1) u (by omega) hu (by omega) hfine (by omega)
      refine ⟨r, h1, by omega, h3, h4, ?_⟩
      intro v hv1 hv2
      by_cases hvc : v = c
      · subst hvc
        simpa using hfc
      · exact h5 v (by omega) hv2

/-- Among five successive values one is fine. -/
theorem exists_fineAt (c : Int) : ∃ u, c ≤ u ∧ u ≤ c + 4 ∧ fineAt u = true := by
  by_contra hno
  push_neg at hno
  have h0 := hno c le_rfl (by omega)
  have h1 := hno (c + 1) (by omega) (by omega)
  have h2 := hno (c + 2) (by omega) (by omega)
  have h3 := hno (c + 3) (by omega) (by omega)
  have h4 := hno (c + 4) (by omega) (by omega)
  rw [Ne, fineAt_iff_emod] at h0 h1 h2 h3 h4
  have hpos : c % 60 ≤ 55 ∨ c % 60 = 56 ∨ c % 60 = 57 ∨ c % 60 = 58 ∨ c % 60 = 59 := by omega
  split_ifs at h0 h1 h2 h3 h4
  · rcases hpos with h | h | h | h | h <;> omega
  all_goals omega

theorem loopFuel_eq : loopFuel = (2 ^ 64 - 5) + 1 + 1 + 1 + 1 + 1 := by decide

/-- More fuel does not change what the scan returns. -/
theorem nearestDisplayFineLoop_mono (k : Nat) (fuel : Nat) : ∀ (c r : Int),
    nearestDisplayFineLoop fuel c = some r → nearestDisplayFineLoop (fuel + k) c = some r := by
  induction fuel with
  | zero =>
    intro c r h
    simp [nearestDisplayFineLoop] at h
  | succ fuel ih =>
    intro c r h
    rw [Nat.add_right_comm, nearestDisplayFineLoop_succ]
    rw [nearestDisplayFineLoop_succ] at h
    by_cases hf : fineAt c = true
    · rw [if_pos hf] at h ⊢
      exact h
    · rw [if_neg hf] at h ⊢
      exact ih _ _ h

/-- Five rounds are enough for the scan of `nearestDisplayFine` on every
`int`: it returns the first fine value from the argument on when there is
one below `maxInt`, and the first one after the wrap-around of
`current += 1` otherwise. -/
theorem nearestDisplayFineLoop_five (t : Int) (h : InInt t) :
    ∃ r, nearestDisplayFineLoop 5 t = some r ∧ InInt r ∧ fineAt r = true ∧
      (∀ v, t ≤ v → v < r → fineAt v = false) ∧ (t < maxInt → t ≤ r ∧ r < maxInt) := by
  obtain ⟨hlo, hhi⟩ := h
  by_cases hmax : t = maxInt
  · subst hmax
    refine ⟨minInt + 2, by decide, by decide, by decide, ?_, fun hlt => absurd hlt (lt_irrefl _)⟩
    intro v h1 h2
    unfold maxInt at h1
    unfold minInt at h2
    omega
  · have hu : ∃ u, t ≤ u ∧ u ≤ t + 4 ∧ u < maxInt ∧ fineAt u = true := by
      by_cases h4 : t + 4 < maxInt
      · obtain ⟨u, a, b, c⟩ := exists_fineAt t
        exact ⟨u, a, b, by omega, c⟩
      · refine ⟨maxInt - 1, by omega, by omega, by omega, by decide⟩
    obtain ⟨u, a, b, c, d⟩ := hu
    obtain ⟨r, h1, h2, h3, h4, h5⟩ :=
      nearestDisplayFineLoop_found 5 t u a (by omega) hlo d (by omega)
    exact ⟨r, h1, ⟨by omega, by omega⟩, h4, h5, fun _ => ⟨h2, by omega⟩⟩

/-- The fuel of the model is immaterial: from five rounds on, every amount of
fuel gives the value of `nearestDisplayFine`. -/
theorem nearestDisplayFineLoop_fuel (fuel : Nat) (h5 : 5 ≤ fuel) (t : Int) (h : InInt t) :
    nearestDisplayFineLoop fuel t = nearestDisplayFine t := by
  obtain ⟨r, hr, _⟩ := nearestDisplayFineLoop_five t h
  have e1 := nearestDisplayFineLoop_mono (fuel - 5) 5 t r hr
  have e2 := nearestDisplayFineLoop_mono (loopFuel - 5) 5 t r hr
  have f1 : 5 + (fuel - 5) = fuel := by omega
  have f2 : 5 + (loopFuel - 5) = loopFuel := by decide
  rw [f1] at e1
  rw [f2] at e2
  rw [e1, nearestDisplayFine, e2]

/-- The scan of `nearestDisplayFine` returns on every `int` a fine value,
with no fine value between the argument and it. -/
theorem nearestDisplayFine_total (t : Int) (h : InInt t) :
    ∃ r, nearestDisplayFine t = some r ∧ InInt r ∧ fineAt r = true ∧
      ∀ v, t ≤ v → v < r → fineAt v = false := by
  obtain ⟨r, h1, h2, h3, h4, _⟩ := nearestDisplayFineLoop_five t h
  rw [nearestDisplayFineLoop_fuel 5 le_rfl t h] at h1
  exact ⟨r, h1, h2, h3, h4⟩

/-- Below `maxInt` the scan of `nearestDisplayFine` does not wrap around: its
value is at or above the argument. -/
theorem nearestDisplayFine_ge (t : Int) (h0 : minInt ≤ t) (h1 : t < maxInt) :
    ∃ r, nearestDisplayFine t = some r ∧ t ≤ r ∧ r < maxInt ∧ fineAt r = true := by
  have h : InInt t := ⟨h0, by omega⟩
  obtain ⟨r, e, _, h3, _, h5⟩ := nearestDisplayFineLoop_five t h
  rw [nearestDisplayFineLoop_fuel 5 le_rfl t h] at e
  exact ⟨r, e, (h5 h1).1, (h5 h1).2, h3⟩

/-! ## The backward scan of `nearestFineDown` -/

theorem nearestFineDownLoop_succ (fuel : Nat) (c : Int) :
    nearestFineDownLoop (fuel + 1) c =
      if isFine c then some c else nearestFineDownLoop fuel (wrap64 (c - 1)) := by
  rw [nearestFineDownLoop]
  cases isFine c <;> simp

/-- Three rounds are enough for the scan of `nearestFineDown`, which returns
the largest multiple of 3 that is not above its argument. -/
theorem nearestFineDownLoop_eq (fuel : Nat) (m : Int) (h1 : minInt + 2 ≤ m) (h2 : m ≤ maxInt) :
    nearestFineDownLoop (fuel + 1 + 1 + 1) m = some (3 * (m / 3)) := by
  rw [nearestFineDownLoop_succ]
  by_cases f0 : isFine m = true
  · rw [if_pos f0]
    have := (isFine_iff m).mp f0
    congr 1
    omega
  · rw [if_neg f0, wrap64_of_inInt (m - 1) ⟨by omega, by omega⟩, nearestFineDownLoop_succ]
    have g0 : ¬ (3 : Int) ∣ m := fun h => f0 ((isFine_iff m).mpr h)
    by_cases f1 : isFine (m - 1) = true
    · rw [if_pos f1]
      have := (isFine_iff (m - 1)).mp f1
      congr 1
      omega
    · rw [if_neg f1, wrap64_of_inInt (m - 1 - 1) ⟨by omega, by omega⟩,
        nearestFineDownLoop_succ]
      have g1 : ¬ (3 : Int) ∣ m - 1 := fun h => f1 ((isFine_iff (m - 1)).mpr h)
      have f2 : isFine (m - 1 - 1) = true := (isFine_iff (m - 1 - 1)).mpr (by omega)
      rw [if_pos f2]
      congr 1
      omega

/-- The function `nearestFineDown` returns the largest multiple of 3 that is
not above its argument. -/
theorem nearestFineDown_eq (m : Int) (h1 : minInt + 2 ≤ m) (h2 : m ≤ maxInt) :
    nearestFineDown m = some (3 * (m / 3)) := by
  have e : loopFuel = (2 ^ 64 - 3) + 1 + 1 + 1 := by decide
  unfold nearestFineDown
  rw [e]
  exact nearestFineDownLoop_eq _ m h1 h2

/-! ## Formatting -/

theorem Itoa_digit (m : Int) (h0 : 0 ≤ m) (h1 : m ≤ 9) : Itoa m = [Nat.digitChar m.toNat] := by
  interval_cases m <;> rfl

theorem Sprintf02d_two (s : Int) (h0 : 0 ≤ s) (h1 : s ≤ 59) :
    Sprintf02d s = [Nat.digitChar (s / 10).toNat, Nat.digitChar (s % 10).toNat] := by
  interval_cases s <;> rfl

theorem length_le_len (s : GoString) : s.length ≤ len s := by
  induction s with
  | nil => simp [len]
  | cons c cs ih =>
    have := Char.utf8Size_pos c
    simp only [len, List.map_cons, List.sum_cons, List.length_cons] at ih ⊢
    omega

/-- The display of a total that is not negative and below `maxInt`. -/
theorem totalSecondsToString_eq (t : Int) (h0 : 0 ≤ t) (h1 : t < maxInt) :
    ∃ f, nearestDisplayFine t = some f ∧ t ≤ f ∧ f < maxInt ∧
      totalSecondsToString t = some (displaySpec (Int.tdiv f 60) (Int.tmod f 60)) := by
  obtain ⟨f, hf, hge, hlt, _⟩ := nearestDisplayFine_ge t (by unfold minInt; omega) h1
  refine ⟨f, hf, hge, hlt, ?_⟩
  have hf0 : 0 ≤ f := by omega
  have hm : Int.tdiv f 60 = f / 60 := by
    have := tdiv60 f
    rwa [if_pos hf0] at this
  have hs : Int.tmod f 60 = f % 60 := by
    have := tmod60 f
    rwa [if_pos hf0] at this
  unfold totalSecondsToString
  rw [hf]
  simp only [secondsInMinute, hm, hs]
  unfold displaySpec
  by_cases h9 : f / 60 > 9
  · rw [if_pos h9, if_pos h9]
    have hdown := nearestFineDown_eq (f / 60) (by unfold minInt; omega)
      (by unfold maxInt at hlt ⊢; omega)
    rw [hdown]
  · rw [if_neg h9, if_neg h9]
    have e1 := Itoa_digit (f / 60) (by omega) (by omega)
    have e2 := Sprintf02d_two (f % 60) (by omega) (by omega)
    have eo : Itoa (f / 60) ++ Sprintf02d (f % 60) =
        [Nat.digitChar (f / 60).toNat, Nat.digitChar (f % 60 / 10).toNat,
          Nat.digitChar (f % 60 % 10).toNat] := by
      rw [e1, e2]
      rfl
    have hl := length_le_len (Itoa (f / 60) ++ Sprintf02d (f % 60))
    rw [eo] at hl ⊢
    simp only [List.length_cons, List.length_nil] at hl
    rw [if_neg (by omega)]

theorem digitChar_ne_minus : ∀ d : Nat, d < 10 → Nat.digitChar d ≠ '-' := by decide

theorem toDigitsCore_head (fuel : Nat) : ∀ (n : Nat) (acc : List Char),
    (fuel = 0 → ∃ d rest, d < 10 ∧ acc = Nat.digitChar d :: rest) →
    ∃ d rest, d < 10 ∧ Nat.toDigitsCore 10 fuel n acc = Nat.digitChar d :: rest := by
  induction fuel with
  | zero =>
    intro n acc h
    simpa [Nat.toDigitsCore] using h rfl
  | succ fuel ih =>
    intro n acc _
    rw [Nat.toDigitsCore]
    split
    · exact ⟨n % 10, acc, Nat.mod_lt _ (by decide), rfl⟩
    · exact ih _ _ (fun _ => ⟨n % 10, acc, Nat.mod_lt _ (by decide), rfl⟩)

/-- The decimal writing of a number starts with a digit. -/
theorem toDigits_head (n : Nat) :
    ∃ d rest, d < 10 ∧ Nat.toDigits 10 n = Nat.digitChar d :: rest :=
  toDigitsCore_head (n + 1) n [] (fun h => absurd h (Nat.succ_ne_zero n))

theorem Itoa_head_of_nonneg (n : Int) (h : 0 ≤ n) :
    ∃ d rest, d < 10 ∧ Itoa n = Nat.digitChar d :: rest := by
  unfold Itoa
  rw [if_neg (by omega)]
  exact toDigits_head _

/-- The display of the specification does not start with a minus sign when
the minutes are not negative. -/
theorem displaySpec_head (m s : Int) (hm : 0 ≤ m) : (displaySpec m s).head? ≠ some '-' := by
  unfold displaySpec
  split
  · have hk : (0 : Int) ≤ if 3 * (m / 3) ≤ 9 then 12 else 3 * (m / 3) := by
      split <;> omega
    obtain ⟨d, rest, hd, e⟩ := Itoa_head_of_nonneg _ hk
    simp only [e, List.cons_append, List.head?_cons, ne_eq, Option.some.injEq]
    exact digitChar_ne_minus d hd
  · simp only [List.head?_cons, ne_eq, Option.some.injEq]
    exact digitChar_ne_minus _ (by omega)

/-- The function `totalSecondsToString` returns on every `int`. -/
theorem totalSecondsToString_total (t : Int) (h : InInt t) :
    ∃ str, totalSecondsToString t = some str := by
  obtain ⟨f, hf, ⟨hlo, hhi⟩, _, _⟩ := nearestDisplayFine_total t h
  unfold totalSecondsToString
  rw [hf]
  simp only
  split
  · rename_i h9
    have hq := tdiv60 f
    have hdown := nearestFineDown_eq (Int.tdiv f secondsInMinute)
      (by unfold minInt; omega)
      (by
        unfold maxInt at hhi ⊢
        split at hq <;> omega)
    rw [hdown]
    exact ⟨_, rfl⟩
  · split
    · exact ⟨_, rfl⟩
    · exact ⟨_, rfl⟩

/-- The function `toString` returns on all arguments. -/
theorem toString_total (minutes seconds : Int) : ∃ str, toString minutes seconds = some str :=
  totalSecondsToString_total _ (inInt_wrap64 _)

/-! ## The quantizer: the claims -/

/-- C1, amended: for every `t` with `0 ≤ t` and `t < maxInt` (that is
`2 ^ 63 - 1`), `nearestDisplayFine(t)` returns, and its value `r` has `t ≤ r`
and `sumDigits(r / 60) + sumDigits(r % 60)` divisible by 3. -/
theorem nearestDisplayFine_fine_ge (t : Int) (h0 : 0 ≤ t) (h1 : t < maxInt) :
    ∃ r, nearestDisplayFine t = some r ∧ t ≤ r ∧
      isFine (sumDigits (Int.tdiv r 60) + sumDigits (Int.tmod r 60)) = true := by
  obtain ⟨r, a, b, _, d⟩ := nearestDisplayFine_ge t (by unfold minInt; omega) h1
  exact ⟨r, a, b, d⟩

/-- C1, amended, at the total 300: the hypotheses hold there. -/
theorem nearestDisplayFine_fine_ge_witness :
    (0 : Int) ≤ 300 ∧ (300 : Int) < maxInt ∧
      ∃ r, nearestDisplayFine 300 = some r ∧ 300 ≤ r ∧
        isFine (sumDigits (Int.tdiv r 60) + sumDigits (Int.tmod r 60)) = true :=
  ⟨by decide, by decide, nearestDisplayFine_fine_ge 300 (by decide) (by decide)⟩

/-- C1 as stated fails at the largest `int`: `2 ^ 63 - 1` is not fine,
`current += 1` wraps around to the smallest `int`, and the value returned,
`-(2 ^ 63) + 2`, is below the argument. -/
theorem nearestDisplayFine_maxInt_wraps :
    nearestDisplayFine (2 ^ 63 - 1) = some (-(2 ^ 63) + 2) ∧
      ¬ ∃ r, nearestDisplayFine (2 ^ 63 - 1) = some r ∧ (2 ^ 63 - 1 : Int) ≤ r ∧
        isFine (sumDigits (Int.tdiv r 60) + sumDigits (Int.tmod r 60)) = true := by
  have h : nearestDisplayFine (2 ^ 63 - 1) = some (-(2 ^ 63) + 2) := by decide
  refine ⟨h, ?_⟩
  rintro ⟨r, hr, hle, _⟩
  rw [h] at hr
  have e : (-(2 ^ 63) + 2 : Int) = r := Option.some.inj hr
  omega

/-- C3, amended: for every `t` with `0 ≤ t` and `t < maxInt` (that is
`2 ^ 63 - 1`), `nearestDisplayFine(t)` returns the minimal fine value at or
above `t`: its value `r` has `t ≤ r`, `sumDigits(r / 60) + sumDigits(r % 60)`
is divisible by 3, and no `u` with `t ≤ u < r` has
`sumDigits(u / 60) + sumDigits(u % 60)` divisible by 3. -/
theorem nearestDisplayFine_minimal (t : Int) (h0 : 0 ≤ t) (h1 : t < maxInt) :
    ∃ r, nearestDisplayFine t = some r ∧ t ≤ r ∧
      isFine (sumDigits (Int.tdiv r 60) + sumDigits (Int.tmod r 60)) = true ∧
      ∀ u, t ≤ u → u < r →
        isFine (sumDigits (Int.tdiv u 60) + sumDigits (Int.tmod u 60)) = false := by
  have h : InInt t := ⟨by unfold minInt; omega, by omega⟩
  obtain ⟨r, a, _, c, d⟩ := nearestDisplayFine_total t h
  obtain ⟨r', a', b', _, _⟩ := nearestDisplayFine_ge t h.1 h1
  rw [a] at a'
  have e : r = r' := Option.some.inj a'
  subst e
  exact ⟨r, a, b', c, d⟩

/-- C3, amended, at the total 238, whose first fine value is 242: 238, 239,
240 and 241 are not fine. -/
theorem nearestDisplayFine_minimal_witness :
    (0 : Int) ≤ 238 ∧ (238 : Int) < maxInt ∧
      ∃ r, nearestDisplayFine 238 = some r ∧ 238 ≤ r ∧
        isFine (sumDigits (Int.tdiv r 60) + sumDigits (Int.tmod r 60)) = true ∧
        ∀ u, (238 : Int) ≤ u → u < r →
          isFine (sumDigits (Int.tdiv u 60) + sumDigits (Int.tmod u 60)) = false :=
  ⟨by decide, by decide, nearestDisplayFine_minimal 238 (by decide) (by decide)⟩

/-- C3 as stated fails at the largest `int`: the value returned for
`2 ^ 63 - 1` is `-(2 ^ 63) + 2`, which is not at or above the argument, so it
is not the minimal fine value at or above it; no `int` at or above
`2 ^ 63 - 1` is fine. -/
theorem nearestDisplayFine_maxInt_not_minimal :
    nearestDisplayFine (2 ^ 63 - 1) = some (-(2 ^ 63) + 2) ∧
      isFine (sumDigits (Int.tdiv (2 ^ 63 - 1) 60) + sumDigits (Int.tmod (2 ^ 63 - 1) 60)) =
        false ∧
      ¬ ∃ r, nearestDisplayFine (2 ^ 63 - 1) = some r ∧ (2 ^ 63 - 1 : Int) ≤ r ∧
        isFine (sumDigits (Int.tdiv r 60) + sumDigits (Int.tmod r 60)) = true ∧
        ∀ u, (2 ^ 63 - 1 : Int) ≤ u → u < r →
          isFine (sumDigits (Int.tdiv u 60) + sumDigits (Int.tmod u 60)) = false := by
  have h : nearestDisplayFine (2 ^ 63 - 1) = some (-(2 ^ 63) + 2) := by decide
  refine ⟨h, by decide, ?_⟩
  rintro ⟨r, hr, hle, _⟩
  rw [h] at hr
  have e : (-(2 ^ 63) + 2 : Int) = r := Option.some.inj hr
  omega

/-- The scan from 238 returns 242. -/
theorem nearestDisplayFine_238 : nearestDisplayFine 238 = some 242 := by decide

/-- C5, amended: for every `t` with `0 ≤ t` and `t < maxInt`, with
`f = nearestDisplayFine(t)`, `m = f / 60` and `s = f % 60`,
`totalSecondsToString(t)` is the display of the specification: when `m > 9`
the largest multiple of 3 not above `m`, replaced by 12 when at most 9,
followed by the degree sign; otherwise the three characters made of the
digit `m` and of `s` on two digits. -/
theorem totalSecondsToString_spec (t : Int) (h0 : 0 ≤ t) (h1 : t < maxInt) :
    ∃ f, nearestDisplayFine t = some f ∧
      totalSecondsToString t = some (displaySpec (Int.tdiv f 60) (Int.tmod f 60)) := by
  obtain ⟨f, a, _, _, d⟩ := totalSecondsToString_eq t h0 h1
  exact ⟨f, a, d⟩

/-- C5, amended, at the total 800 (13 minutes 20 seconds). -/
theorem totalSecondsToString_spec_witness :
    (0 : Int) ≤ 800 ∧ (800 : Int) < maxInt ∧
      ∃ f, nearestDisplayFine 800 = some f ∧
        totalSecondsToString 800 = some (displaySpec (Int.tdiv f 60) (Int.tmod f 60)) :=
  ⟨by decide, by decide, totalSecondsToString_spec 800 (by decide) (by decide)⟩

/-- C5 as stated fails at the largest `int`: the scan wraps around to the
negative `f = -(2 ^ 63) + 2`, whose minutes are not above 9, and the display
is a string of 22 characters, not the three of the claim. -/
theorem totalSecondsToString_maxInt :
    nearestDisplayFine (2 ^ 63 - 1) = some (-(2 ^ 63) + 2) ∧
      ¬ Int.tdiv (-(2 ^ 63) + 2) 60 > 9 ∧
      totalSecondsToString (2 ^ 63 - 1) = some "-153722867280912930-06".toList ∧
      totalSecondsToString (2 ^ 63 - 1) ≠
        some (displaySpec (Int.tdiv (-(2 ^ 63) + 2) 60) (Int.tmod (-(2 ^ 63) + 2) 60)) := by
  refine ⟨by decide, by decide, by decide, by decide⟩

/-- The witnesses of C5: every total of 13 minutes, 780 to 839 seconds, is
displayed as 12 degrees. -/
theorem totalSecondsToString_thirteen (t : Int) (h0 : 780 ≤ t) (h1 : t ≤ 839) :
    totalSecondsToString t = some "12°".toList := by
  interval_cases t <;> decide

/-- The witnesses of C5: the total 0 is displayed as three zeros. -/
theorem totalSecondsToString_zero : totalSecondsToString 0 = some "000".toList := by decide

/-- C9, amended: for the input duration `5` the first display is `501`:
`parseStringCountToSeconds` returns 301, the first fine value from 300 on,
which `totalSecondsToString` displays as `501`, and `toString(5, 0)` is
`501` too. -/
theorem display_of_five :
    parseStringCountToSeconds "5".toList = some 301 ∧
      (parseStringCountToSeconds "5".toList).bind totalSecondsToString = some "501".toList ∧
      toString 5 0 = some "501".toList := by
  refine ⟨by decide, by decide, by decide⟩

/-- C9 as stated fails: neither display of the duration `5` is `500`. -/
theorem five_not_shown_as_500 :
    (parseStringCountToSeconds "5".toList).bind totalSecondsToString ≠ some "500".toList ∧
      toString 5 0 ≠ some "500".toList := by
  refine ⟨by decide, by decide⟩

/-! ## The tick of `countDown` -/

/-- The `if isOverTime` statement of the loop ends on every reading, and
leaves the reading flipped when the flag is set, as it was otherwise. -/
theorem menuString_total (flag : Bool) (remaining : countdown) :
    ∃ str, menuString flag remaining =
      some (if flag then remaining.flipForOverTime else remaining, str) := by
  cases flag with
  | true =>
    obtain ⟨str, hs⟩ := toString_total remaining.flipForOverTime.minutes
      remaining.flipForOverTime.seconds
    unfold menuString
    simp only [if_true, hs]
    by_cases h : remaining.flipForOverTime.seconds ≥ 1
    · exact ⟨_, by rw [if_pos h]⟩
    · exact ⟨_, by rw [if_neg h]⟩
  | false =>
    obtain ⟨str, hs⟩ := toString_total remaining.minutes remaining.seconds
    unfold menuString
    simp only [Bool.false_eq_true, if_false, hs]
    exact ⟨_, rfl⟩

/-- One round of the loop of `countDown` ends on every reading; it starts
`timerIsUp` when the flag is not set and the reading is over time, and the
flag after it is set when it was set or the reading is over time. -/
theorem countDownTick_total (timerName : GoString) (st : TickState) (remaining : countdown) :
    ∃ result, countDownTick timerName st remaining = some result ∧
      result.launchedTimerIsUp = (!st.isOverTime && remaining.isOverTime) ∧
      result.state.isOverTime = (st.isOverTime || remaining.isOverTime) := by
  obtain ⟨str, hs⟩ := menuString_total st.isOverTime remaining
  unfold countDownTick
  rw [hs]
  refine ⟨_, rfl, ?_, ?_⟩
  · cases h : st.isOverTime <;> simp
  · cases h : st.isOverTime <;> simp

/-- The rounds of the loop on any readings from any state: round `i` starts
`timerIsUp` when the flag was not set at the start, reading `i` is over time
and no earlier reading is; the flag after round `i` is set when it was set at
the start or one of the readings up to `i` is over time. -/
theorem countDownRun_trace (timerName : GoString) (readings : List countdown) :
    ∀ st : TickState, ∃ results, countDownRun timerName st readings = some results ∧
      results.length = readings.length ∧
      ∀ i result, results[i]? = some result → ∃ c, readings[i]? = some c ∧
        result.launchedTimerIsUp = (!st.isOverTime && c.isOverTime &&
          (readings.take i).all (fun c' => !c'.isOverTime)) ∧
        result.state.isOverTime = (st.isOverTime ||
          (readings.take (i + 1)).any (fun c' => c'.isOverTime)) := by
  induction readings with
  | nil =>
    intro st
    exact ⟨[], rfl, rfl, fun i result h => by simp at h⟩
  | cons r rs ih =>
    intro st
    obtain ⟨res, hres, hl, hf⟩ := countDownTick_total timerName st r
    obtain ⟨results, hrun, hlen, hall⟩ := ih res.state
    refine ⟨res :: results, ?_, by simp [hlen], ?_⟩
    · simp only [countDownRun, hres, hrun]
    · intro i result hi
      cases i with
      | zero =>
        simp only [List.getElem?_cons_zero, Option.some.injEq] at hi
        subst hi
        exact ⟨r, by simp, by simp [hl], by simp [hf]⟩
      | succ i =>
        simp only [List.getElem?_cons_succ] at hi
        obtain ⟨c, hc, h1, h2⟩ := hall i result hi
        refine ⟨c, by simpa using hc, ?_, ?_⟩
        · rw [h1, hf]
          simp only [List.take_succ_cons, List.all_cons]
          cases st.isOverTime <;> cases r.isOverTime <;> simp
        · rw [h2, hf]
          simp only [List.take_succ_cons, List.any_cons, Bool.or_assoc]

/-- An over-time reading after `flipForOverTime`: the minutes and seconds
of the magnitude of the clock difference. -/
theorem flipForOverTime_getRemainingTime (total : Int) (h0 : -maxInt < total)
    (h1 : total < maxInt) :
    (getRemainingTime total).flipForOverTime =
      { minutes := (total.natAbs : Int) / 60, seconds := (total.natAbs : Int) % 60 } := by
  unfold maxInt at h0 h1
  simp only [getRemainingTime, countdown.flipForOverTime, tdiv60, tmod60, wrap64]
  congr 1 <;> split_ifs <;> omega

/-- The total seconds `toString` passes on for the minutes and seconds of a
total that is in range. -/
theorem wrap64_minutes_seconds (a : Int) (h0 : 0 ≤ a) (h1 : a ≤ maxInt) :
    wrap64 (wrap64 (a / 60 * secondsInMinute) + a % 60) = a := by
  unfold maxInt at h1
  unfold wrap64 secondsInMinute
  omega

theorem any_take_mono (p : countdown → Bool) (l : List countdown) (a b : Nat) (h : a ≤ b)
    (ha : (l.take a).any p = true) : (l.take b).any p = true := by
  rw [List.any_eq_true] at ha ⊢
  obtain ⟨x, hx, hp⟩ := ha
  refine ⟨x, ?_, hp⟩
  have e : l.take a = (l.take b).take a := by
    rw [List.take_take, Nat.min_eq_left h]
  rw [e] at hx
  exact List.take_subset _ _ hx

/-- C8: on every sequence of readings fed to the loop of `countDown`, from
the state in which the loop is entered (flag not set, any last title), every
round ends; `timerIsUp` is started in round `i` exactly when reading `i`
satisfies `isOverTime` and none of the readings before it does; and a flag
set after round `i` is set after every later round. -/
theorem countDown_launches_once (timerName lastTitle : GoString) (readings : List countdown) :
    ∃ results,
      countDownRun timerName { isOverTime := false, lastCurrentTime := lastTitle } readings =
        some results ∧
      results.length = readings.length ∧
      (∀ i result, results[i]? = some result → ∃ c, readings[i]? = some c ∧
        (result.launchedTimerIsUp = true ↔
          c.isOverTime = true ∧ ∀ c' ∈ readings.take i, c'.isOverTime = false)) ∧
      (∀ (i j : Nat) (ri rj : TickResult), i ≤ j → results[i]? = some ri →
        results[j]? = some rj →
        ri.state.isOverTime = true → rj.state.isOverTime = true) := by
  obtain ⟨results, hrun, hlen, hall⟩ := countDownRun_trace timerName readings
    { isOverTime := false, lastCurrentTime := lastTitle }
  refine ⟨results, hrun, hlen, ?_, ?_⟩
  · intro i result hi
    obtain ⟨c, hc, h1, _⟩ := hall i result hi
    refine ⟨c, hc, ?_⟩
    rw [h1]
    simp [List.all_eq_true]
  · intro i j ri rj hij hi hj hset
    obtain ⟨_, _, _, h2⟩ := hall i ri hi
    obtain ⟨_, _, _, h3⟩ := hall j rj hj
    rw [h2] at hset
    rw [h3]
    simp only [Bool.false_or] at hset ⊢
    exact any_take_mono _ readings (i + 1) (j + 1) (by omega) hset

/-- C8 on the readings 1 s, 0 s, -1 s, -2 s: `timerIsUp` is started in the
second round only and the flag stays set from there on. -/
theorem countDown_four_readings :
    (countDownRun [] initialTickState
        [getRemainingTime 1, getRemainingTime 0, getRemainingTime (-1),
          getRemainingTime (-2)]).map
      (fun results => results.map
        (fun result => (result.launchedTimerIsUp, result.state.isOverTime, result.title))) =
      some [(false, false, "003".toList), (true, true, "000".toList),
        (false, true, "-003".toList), (false, true, "-003".toList)] := by
  decide

/-- C4: in a round of the loop of `countDown` with the flag set and no
timer name, on the reading of any clock difference `total` with
`-maxInt < total < maxInt` (a `time.Duration` holds less than `2 ^ 34`
seconds), the title starts with `-` exactly when the seconds of the flipped
reading are not 0. -/
theorem overtime_minus_iff (lastTitle : GoString) (total : Int) (h0 : -maxInt < total)
    (h1 : total < maxInt) :
    ∃ result,
      countDownTick [] { isOverTime := true, lastCurrentTime := lastTitle }
        (getRemainingTime total) = some result ∧
      (result.title.head? = some '-' ↔
        (getRemainingTime total).flipForOverTime.seconds ≠ 0) := by
  have hflip := flipForOverTime_getRemainingTime total h0 h1
  have ha0 : (0 : Int) ≤ total.natAbs := by omega
  have ha1 : (total.natAbs : Int) < maxInt := by omega
  obtain ⟨f, _, hge, _, hstr⟩ := totalSecondsToString_eq total.natAbs ha0 ha1
  have hhead := displaySpec_head (Int.tdiv f 60) (Int.tmod f 60)
    (Int.tdiv_nonneg (by omega) (by norm_num))
  have hto : toString ((total.natAbs : Int) / 60) ((total.natAbs : Int) % 60) =
      some (displaySpec (Int.tdiv f 60) (Int.tmod f 60)) := by
    unfold toString
    rw [wrap64_minutes_seconds _ ha0 (by omega), hstr]
  unfold countDownTick menuString
  simp only [if_true, hflip, hto]
  by_cases hs : (total.natAbs : Int) % 60 ≥ 1
  · rw [if_pos hs]
    refine ⟨_, rfl, ?_⟩
    simp only [ne_eq, not_true_eq_false, if_false, List.head?_cons, true_iff]
    omega
  · rw [if_neg hs]
    refine ⟨_, rfl, ?_⟩
    simp only [ne_eq, not_true_eq_false, if_false]
    constructor
    · intro h
      exact absurd h hhead
    · intro h
      omega

/-- C4 at the zero crossing: with the flag set, the reading of a clock
difference of 0 seconds is displayed as `000`, without a minus sign. -/
theorem overtime_minus_iff_witness :
    -maxInt < (0 : Int) ∧ (0 : Int) < maxInt ∧
      ∃ result,
        countDownTick [] { isOverTime := true, lastCurrentTime := [] }
          (getRemainingTime 0) = some result ∧
        (result.title.head? = some '-' ↔
          (getRemainingTime 0).flipForOverTime.seconds ≠ 0) :=
  ⟨by decide, by decide, overtime_minus_iff [] 0 (by decide) (by decide)⟩

/-- The titles of over-time rounds: `000` at the target, `-006` five
seconds past it, `102` one minute past it (the seconds of the reading are 0
there, so there is no minus sign). -/
theorem overtime_titles :
    (countDownTick [] { isOverTime := true, lastCurrentTime := [] }
        (getRemainingTime 0)).map (fun result => result.title) = some "000".toList ∧
      (countDownTick [] { isOverTime := true, lastCurrentTime := [] }
        (getRemainingTime (-5))).map (fun result => result.title) = some "-006".toList ∧
      (countDownTick [] { isOverTime := true, lastCurrentTime := [] }
        (getRemainingTime (-60))).map (fun result => result.title) = some "102".toList := by
  refine ⟨by decide, by decide, by decide⟩

/-- The total seconds a round of the loop hands to `totalSecondsToString`:
the magnitude of the clock difference when the flag is set, the clock
difference itself, negative or not, when it is not. -/
theorem quantizerInput_getRemainingTime (flag : Bool) (total : Int) (h0 : -maxInt < total)
    (h1 : total < maxInt) :
    quantizerInput flag (getRemainingTime total) =
      if flag then (total.natAbs : Int) else total := by
  cases flag with
  | true =>
    unfold quantizerInput
    simp only [if_true, flipForOverTime_getRemainingTime total h0 h1]
    exact wrap64_minutes_seconds _ (by omega) (by omega)
  | false =>
    unfold maxInt at h0 h1
    simp only [quantizerInput, getRemainingTime, Bool.false_eq_true, if_false, tdiv60, tmod60]
    simp only [wrap64, secondsInMinute]
    split_ifs <;> omega

/-- The duration argument `,-5` makes `countDown` start 3 seconds past its
target: its first reading is negative without any stall of the loop. -/
theorem negative_duration_argument :
    parseStringCountToSeconds ",-5".toList = some (-3) ∧
      (countDownTick [] initialTickState (getRemainingTime (-3))).map
        (fun result => (result.quantized, result.title)) = some (-3, "0-03".toList) := by
  refine ⟨by decide, by decide⟩

/-- C10 fails on the code: in a round with the flag not yet set, the reading
of a clock difference of -5 seconds (minutes 0, seconds -5) is not flipped;
`toString` passes the total -5 to `totalSecondsToString`, the title is
`0-03`, and only then is the flag set. -/
theorem first_overtime_reading_not_flipped :
    getRemainingTime (-5) = { minutes := 0, seconds := -5 } ∧
      (countDownTick [] initialTickState (getRemainingTime (-5))).map
        (fun result => (result.quantized, result.title, result.state.isOverTime)) =
        some (-5, "0-03".toList, true) ∧
      totalSecondsToString (-5) = some "0-03".toList := by
  refine ⟨by decide, by decide, by decide⟩

/-! ## Lines of a string -/

theorem Split_of_not_mem (sep : Char) : ∀ l : GoString, sep ∉ l → Split l sep = [l] := by
  intro l
  induction l with
  | nil => intro _; rfl
  | cons c cs ih =>
    intro h
    have hc : c ≠ sep := fun e => h (e ▸ List.mem_cons_self _ _)
    have hcs : sep ∉ cs := fun e => h (List.mem_cons_of_mem _ e)
    rw [Split, if_neg hc, ih hcs]

theorem Split_append_sep (sep : Char) (rest : GoString) : ∀ l : GoString, sep ∉ l →
    Split (l ++ sep :: rest) sep = l :: Split rest sep := by
  intro l
  induction l with
  | nil =>
    intro _
    rw [List.nil_append, Split, if_pos rfl]
  | cons c cs ih =>
    intro h
    have hc : c ≠ sep := fun e => h (e ▸ List.mem_cons_self _ _)
    have hcs : sep ∉ cs := fun e => h (List.mem_cons_of_mem _ e)
    rw [List.cons_append, Split, if_neg hc, ih hcs]

/-- The first part of a split is what stands before the first separator. -/
theorem Split_headD (sep : Char) : ∀ s : GoString,
    (Split s sep).headD [] = s.takeWhile (fun c => c != sep) := by
  intro s
  induction s with
  | nil => rfl
  | cons c cs ih =>
    rw [Split]
    by_cases hc : c = sep
    · rw [if_pos hc]
      simp [hc]
    · rw [if_neg hc]
      have hb : (c != sep) = true := by simpa using hc
      rw [List.takeWhile_cons, if_pos hb, ← ih]
      cases Split cs sep <;> rfl

/-- No part of a split holds the separator. -/
theorem not_mem_of_mem_Split (sep : Char) : ∀ (s l : GoString), l ∈ Split s sep → sep ∉ l := by
  intro s
  induction s with
  | nil =>
    intro l h
    simp only [Split, List.mem_singleton] at h
    simp [h]
  | cons c cs ih =>
    intro l h
    rw [Split] at h
    by_cases hc : c = sep
    · rw [if_pos hc] at h
      rcases List.mem_cons.mp h with h | h
      · simp [h]
      · exact ih l h
    · rw [if_neg hc] at h
      cases hs : Split cs sep with
      | nil =>
        rw [hs] at h
        simp only [List.mem_singleton] at h
        subst h
        simpa using fun e => hc e.symm
      | cons part parts =>
        rw [hs] at h
        have hpart : sep ∉ part := ih part (by rw [hs]; exact List.mem_cons_self _ _)
        rcases List.mem_cons.mp h with h | h
        · subst h
          intro hm
          rcases List.mem_cons.mp hm with e | e
          · exact hc e.symm
          · exact hpart e
        · exact ih l (by rw [hs]; exact List.mem_cons_of_mem _ h)

theorem terminated_cons (l : GoString) (ls : List GoString) :
    terminated (l :: ls) = l ++ '\n' :: terminated ls := by
  simp [terminated]

theorem terminated_append (ls ms : List GoString) :
    terminated (ls ++ ms) = terminated ls ++ terminated ms := by
  simp [terminated]

/-- Lines without a newline, joined by newlines, split back into the lines. -/
theorem Split_terminated_append (last : GoString) (hlast : '\n' ∉ last) :
    ∀ ls : List GoString, (∀ l ∈ ls, '\n' ∉ l) →
      Split (terminated ls ++ last) '\n' = ls ++ [last] := by
  intro ls
  induction ls with
  | nil =>
    intro _
    simpa [terminated] using Split_of_not_mem '\n' last hlast
  | cons l ls ih =>
    intro h
    rw [terminated_cons, List.append_assoc, List.cons_append,
      Split_append_sep '\n' _ l (h l (List.mem_cons_self _ _)),
      ih (fun x hx => h x (List.mem_cons_of_mem _ hx))]
    rfl

theorem intercalate_append_singleton (last : GoString) : ∀ ls : List GoString,
    List.intercalate ['\n'] (ls ++ [last]) = terminated ls ++ last := by
  intro ls
  induction ls with
  | nil => simp [List.intercalate, terminated]
  | cons l ls ih =>
    rw [terminated_cons]
    cases ls with
    | nil => simp [List.intercalate, terminated]
    | cons l' ls' =>
      have e : List.intercalate ['\n'] (l :: ((l' :: ls') ++ [last])) =
          l ++ ['\n'] ++ List.intercalate ['\n'] ((l' :: ls') ++ [last]) := by
        simp [List.intercalate]
      rw [List.cons_append, e, ih]
      simp

theorem HasPrefix_iff : ∀ (s pre : GoString), HasPrefix s pre = true ↔ pre <+: s := by
  intro s
  induction s with
  | nil =>
    intro pre
    cases pre <;> simp [HasPrefix]
  | cons c cs ih =>
    intro pre
    cases pre with
    | nil => simp [HasPrefix]
    | cons d ds =>
      simp only [HasPrefix, Bool.and_eq_true, beq_iff_eq, ih, List.cons_prefix_cons]
      exact ⟨fun h => ⟨h.1.symm, h.2⟩, fun h => ⟨h.1.symm, h.2⟩⟩

/-! ## White space at the ends -/

/-- A string that neither starts nor ends with white space is left as it is. -/
theorem TrimSpace_eq_self (a b : Char) (front back : GoString) (s : GoString)
    (h1 : s = a :: front) (h2 : s = back ++ [b]) (ha : isSpace a = false)
    (hb : isSpace b = false) : TrimSpace s = s := by
  unfold TrimSpace
  have e1 : s.dropWhile isSpace = s := by
    rw [h1, List.dropWhile_cons_of_neg (by simp [ha])]
  rw [e1, h2, List.rdropWhile_concat_neg _ _ _ (by simp [hb])]

theorem dropWhile_nil_or_cons (s : GoString) :
    s.dropWhile isSpace = [] ∨ ∃ a r, s.dropWhile isSpace = a :: r ∧ isSpace a = false := by
  induction s with
  | nil => exact Or.inl rfl
  | cons c cs ih =>
    by_cases hc : isSpace c = true
    · rw [List.dropWhile_cons_of_pos hc]
      exact ih
    · rw [List.dropWhile_cons_of_neg hc]
      exact Or.inr ⟨c, cs, rfl, by simpa using hc⟩

/-- Trimming twice is trimming once. -/
theorem TrimSpace_idem (s : GoString) : TrimSpace (TrimSpace s) = TrimSpace s := by
  unfold TrimSpace
  rcases dropWhile_nil_or_cons s with h | ⟨a, r, h, ha⟩
  · rw [h]
    rfl
  · rw [h]
    have hp := List.rdropWhile_prefix isSpace (a :: r)
    cases ht : List.rdropWhile isSpace (a :: r) with
    | nil => rfl
    | cons a' r' =>
      rw [ht] at hp
      have e : a' = a := by
        obtain ⟨t, ht'⟩ := hp
        simp only [List.cons_append, List.cons.injEq] at ht'
        exact ht'.1
      subst e
      rw [List.dropWhile_cons_of_neg (by simp [ha]), ← ht, List.rdropWhile_idempotent]

theorem rdropWhile_append_of_ne_nil (a b : GoString) (h : List.rdropWhile isSpace b ≠ []) :
    List.rdropWhile isSpace (a ++ b) = a ++ List.rdropWhile isSpace b := by
  unfold List.rdropWhile at h ⊢
  rw [List.reverse_append, List.dropWhile_append]
  have hne : List.dropWhile isSpace b.reverse ≠ [] := by
    intro e
    rw [e] at h
    exact h rfl
  have hemp : (List.dropWhile isSpace b.reverse).isEmpty = false := by
    cases hd : List.dropWhile isSpace b.reverse with
    | nil => exact absurd hd hne
    | cons _ _ => rfl
  rw [hemp]
  simp

/-- A token that is not empty and that `TrimSpace` leaves as it is starts
and ends with a character that is not white space. -/
theorem ends_of_TrimSpace_eq (tok : GoString) (hne : tok ≠ []) (h : TrimSpace tok = tok) :
    (∃ a r, tok = a :: r ∧ isSpace a = false) ∧
      (∃ r b, tok = r ++ [b] ∧ isSpace b = false) := by
  have hlen1 : (TrimSpace tok).length ≤ (tok.dropWhile isSpace).length :=
    (List.rdropWhile_prefix isSpace _).length_le
  have hhead : ∃ a r, tok = a :: r ∧ isSpace a = false := by
    cases tok with
    | nil => exact absurd rfl hne
    | cons a r =>
      refine ⟨a, r, rfl, ?_⟩
      by_contra ha
      have ha' : isSpace a = true := by simpa using ha
      rw [List.dropWhile_cons_of_pos ha'] at hlen1
      have hlen2 : (List.dropWhile isSpace r).length ≤ r.length :=
        (List.dropWhile_suffix isSpace).length_le
      rw [h] at hlen1
      simp only [List.length_cons] at hlen1
      omega
  refine ⟨hhead, ?_⟩
  obtain ⟨a, r, e, ha⟩ := hhead
  have hd : tok.dropWhile isSpace = tok := by
    rw [e, List.dropWhile_cons_of_neg (by simp [ha])]
  unfold TrimSpace at h
  rw [hd] at h
  have hlast := List.rdropWhile_eq_self_iff.mp h hne
  refine ⟨tok.dropLast, tok.getLast hne, (List.dropLast_append_getLast hne).symm, ?_⟩
  simpa using hlast

/-! ## The rewrite of the registry -/

theorem timersLine_eq (isPidRunning : GoString → Bool) (pid : Int) (output line : GoString) :
    timersLine isPidRunning (Itoa pid) output line =
      if survives isPidRunning pid line then output ++ (line ++ ['\n']) else output := by
  unfold timersLine survives leadingToken
  simp only [Split_headD]
  cases HasPrefix line (Itoa pid ++ [' ']) <;>
    cases isPidRunning (List.takeWhile (fun c => c != ' ') line) <;> simp

/-- The loop of `getNewTimersString` appends the surviving lines. -/
theorem foldl_timersLine (isPidRunning : GoString → Bool) (pid : Int) :
    ∀ (lines : List GoString) (output : GoString),
      lines.foldl (timersLine isPidRunning (Itoa pid)) output =
        output ++ terminated (lines.filter (survives isPidRunning pid)) := by
  intro lines
  induction lines with
  | nil =>
    intro output
    simp [terminated]
  | cons l ls ih =>
    intro output
    rw [List.foldl_cons, ih, timersLine_eq]
    by_cases h : survives isPidRunning pid l = true
    · rw [if_pos h, List.filter_cons_of_pos h, terminated_cons]
      simp
    · rw [if_neg h, List.filter_cons_of_neg h]

theorem getNewTimersString_true (isPidRunning : GoString → Bool) (current : GoString)
    (pid : Int) (text : GoString) :
    getNewTimersString isPidRunning current pid text true =
      TrimSpace (terminated (survivors isPidRunning current pid) ++
        (Itoa pid ++ [' '] ++ text)) := by
  unfold getNewTimersString survivors
  simp only [foldl_timersLine, if_true, List.nil_append]

theorem getNewTimersString_false (isPidRunning : GoString → Bool) (current : GoString)
    (pid : Int) (text : GoString) :
    getNewTimersString isPidRunning current pid text false =
      TrimSpace (terminated (survivors isPidRunning current pid)) := by
  unfold getNewTimersString survivors
  simp only [foldl_timersLine, Bool.false_eq_true, if_false, List.nil_append]

theorem isSpace_digitChar : ∀ d : Nat, d < 10 → isSpace (Nat.digitChar d) = false := by decide

/-- The decimal writing of an `int` does not start with white space. -/
theorem Itoa_head (n : Int) : ∃ c rest, Itoa n = c :: rest ∧ isSpace c = false := by
  by_cases h : n < 0
  · exact ⟨'-', _, by rw [Itoa, if_pos h], by decide⟩
  · obtain ⟨d, rest, hd, e⟩ := Itoa_head_of_nonneg n (by omega)
    exact ⟨_, rest, e, isSpace_digitChar d hd⟩

theorem head_of_leadingToken (line : GoString) (c : Char) (rest : GoString)
    (h : leadingToken line = c :: rest) : ∃ rest', line = c :: rest' := by
  unfold leadingToken at h
  cases line with
  | nil => simp at h
  | cons c' l =>
    rw [List.takeWhile_cons] at h
    split at h
    · simp only [List.cons.injEq] at h
      exact ⟨l, by rw [h.1]⟩
    · simp at h

theorem rdropWhile_append_of_all (a b : GoString) (h : ∀ x ∈ b, isSpace x = true) :
    List.rdropWhile isSpace (a ++ b) = List.rdropWhile isSpace a := by
  unfold List.rdropWhile
  rw [List.reverse_append, List.dropWhile_append]
  have hnil : List.dropWhile isSpace b.reverse = [] :=
    List.dropWhile_eq_nil_iff.mpr (fun x hx => h x (List.mem_reverse.mp hx))
  rw [hnil]
  simp

theorem rdropWhile_ne_nil_of_head (l : GoString) (c : Char) (r : GoString) (e : l = c :: r)
    (hc : isSpace c = false) : List.rdropWhile isSpace l ≠ [] := by
  intro h
  have hall := List.rdropWhile_eq_nil_iff.mp h c (by rw [e]; exact List.mem_cons_self _ _)
  rw [hc] at hall
  exact Bool.false_ne_true hall

/-- A line that survives starts with a character that is not white space,
when only trimmed, non-empty tokens are reported alive. -/
theorem head_of_survives (isPidRunning : GoString → Bool) (pid : Int)
    (hlive : ∀ tok, isPidRunning tok = true → tok ≠ [] ∧ TrimSpace tok = tok)
    (l : GoString) (h : survives isPidRunning pid l = true) :
    ∃ c r, l = c :: r ∧ isSpace c = false := by
  unfold survives at h
  rw [Bool.and_eq_true] at h
  obtain ⟨hne, htrim⟩ := hlive _ h.2
  obtain ⟨⟨c, r, e, hc⟩, _⟩ := ends_of_TrimSpace_eq _ hne htrim
  obtain ⟨r', e'⟩ := head_of_leadingToken l c r e
  exact ⟨c, r', e', hc⟩

/-- Cutting the trailing white space of a line whose leading token is
trimmed and not empty keeps the leading token. -/
theorem leadingToken_rdropWhile (l : GoString) (hne : leadingToken l ≠ [])
    (htrim : TrimSpace (leadingToken l) = leadingToken l) :
    leadingToken (List.rdropWhile isSpace l) = leadingToken l := by
  obtain ⟨_, ⟨r, b, e, hb⟩⟩ := ends_of_TrimSpace_eq _ hne htrim
  have hall : ∀ x ∈ leadingToken l, (fun c => c != ' ') x = true := fun x hx =>
    @List.mem_takeWhile_imp Char (fun c => c != ' ') l x hx
  have hsplit : leadingToken l ++ l.dropWhile (fun c => c != ' ') = l :=
    List.takeWhile_append_dropWhile _ l
  have hself : leadingToken (leadingToken l) = leadingToken l :=
    (@List.takeWhile_eq_self_iff Char (fun c => c != ' ') (leadingToken l)).mpr hall
  by_cases hrest : List.rdropWhile isSpace (l.dropWhile (fun c => c != ' ')) = []
  · have h1 : List.rdropWhile isSpace l = leadingToken l := by
      conv_lhs => rw [← hsplit]
      rw [rdropWhile_append_of_all _ _ (List.rdropWhile_eq_nil_iff.mp hrest), e,
        List.rdropWhile_concat_neg _ _ _ (by simp [hb])]
    rw [h1, hself]
  · have h1 : List.rdropWhile isSpace l =
        leadingToken l ++ List.rdropWhile isSpace (l.dropWhile (fun c => c != ' ')) := by
      conv_lhs => rw [← hsplit]
      rw [rdropWhile_append_of_ne_nil _ _ hrest]
    have hpre := List.rdropWhile_prefix isSpace (l.dropWhile (fun c => c != ' '))
    cases hd : l.dropWhile (fun c => c != ' ') with
    | nil =>
      rw [hd] at hrest
      exact absurd rfl hrest
    | cons x xs =>
      have hx : ¬ (fun c => c != ' ') x = true := by
        have := List.head?_dropWhile_not (fun c => c != ' ') l
        rw [hd] at this
        simpa using this
      rw [hd] at hpre hrest h1
      cases ht : List.rdropWhile isSpace (x :: xs) with
      | nil => exact absurd ht hrest
      | cons y ys =>
        rw [ht] at hpre h1
        have hy : y = x := by
          obtain ⟨t, ht'⟩ := hpre
          simp only [List.cons_append, List.cons.injEq] at ht'
          exact ht'.1
        subst hy
        rw [h1]
        unfold leadingToken at hall ⊢
        rw [@List.takeWhile_append_of_pos Char (fun c => c != ' ') _ _ hall,
          List.takeWhile_cons, if_neg hx, List.append_nil]

/-- Cutting the trailing white space of a line that survives leaves a line
that survives. -/
theorem survives_rdropWhile (isPidRunning : GoString → Bool) (pid : Int)
    (hlive : ∀ tok, isPidRunning tok = true → tok ≠ [] ∧ TrimSpace tok = tok)
    (l : GoString) (h : survives isPidRunning pid l = true) :
    survives isPidRunning pid (List.rdropWhile isSpace l) = true := by
  unfold survives at h ⊢
  rw [Bool.and_eq_true] at h ⊢
  obtain ⟨hpre, halive⟩ := h
  obtain ⟨hne, htrim⟩ := hlive _ halive
  refine ⟨?_, by rw [leadingToken_rdropWhile l hne htrim]; exact halive⟩
  have hno : ¬ HasPrefix l (Itoa pid ++ [' ']) = true := by simpa using hpre
  have hno' : ¬ HasPrefix (List.rdropWhile isSpace l) (Itoa pid ++ [' ']) = true := by
    intro hp
    exact hno ((HasPrefix_iff _ _).mpr
      (((HasPrefix_iff _ _).mp hp).trans (List.rdropWhile_prefix isSpace l)))
  simpa using hno'

/-- Trimming the text of lines that start with no white space cuts the last
newline and the trailing white space of the last line, nothing else. -/
theorem TrimSpace_terminated (ls : List GoString) (last : GoString)
    (hheads : ∀ l ∈ ls ++ [last], ∃ c r, l = c :: r ∧ isSpace c = false) :
    TrimSpace (terminated (ls ++ [last])) =
      terminated ls ++ List.rdropWhile isSpace last := by
  have e : terminated (ls ++ [last]) = terminated ls ++ (last ++ ['\n']) := by
    rw [terminated_append]
    simp [terminated]
  obtain ⟨c, r, hl, hc⟩ := hheads last (by simp)
  have hhead : ∃ a rest, terminated (ls ++ [last]) = a :: rest ∧ isSpace a = false := by
    cases ls with
    | nil => exact ⟨c, r ++ ['\n'], by rw [e, hl]; simp [terminated], hc⟩
    | cons k ks =>
      obtain ⟨c', r', hk, hc'⟩ := hheads k (by simp)
      exact ⟨c', _, by rw [List.cons_append, terminated_cons, hk]; rfl, hc'⟩
  obtain ⟨a, rest, e1, ha⟩ := hhead
  unfold TrimSpace
  have hdrop : (terminated (ls ++ [last])).dropWhile isSpace = terminated (ls ++ [last]) := by
    rw [e1, List.dropWhile_cons_of_neg (by simp [ha])]
  have hlast : List.rdropWhile isSpace (last ++ ['\n']) = List.rdropWhile isSpace last :=
    List.rdropWhile_concat_pos _ _ _ (by decide)
  rw [hdrop, e, rdropWhile_append_of_ne_nil _ _
    (by rw [hlast]; exact rdropWhile_ne_nil_of_head last c r hl hc), hlast]

/-- Removing an entry from a registry from which it has been removed changes
nothing, when only trimmed, non-empty tokens are reported alive. -/
theorem remove_twice (isPidRunning : GoString → Bool) (pid : Int)
    (hlive : ∀ tok, isPidRunning tok = true → tok ≠ [] ∧ TrimSpace tok = tok)
    (s : GoString) :
    TrimSpace (terminated ((Split
        (TrimSpace (terminated ((Split s '\n').filter (survives isPidRunning pid))))
        '\n').filter (survives isPidRunning pid))) =
      TrimSpace (terminated ((Split s '\n').filter (survives isPidRunning pid))) := by
  have hsurv : ∀ l ∈ (Split s '\n').filter (survives isPidRunning pid),
      survives isPidRunning pid l = true := fun l hl => (List.mem_filter.mp hl).2
  have hnl : ∀ l ∈ (Split s '\n').filter (survives isPidRunning pid), '\n' ∉ l :=
    fun l hl => not_mem_of_mem_Split '\n' s l (List.mem_filter.mp hl).1
  rcases List.eq_nil_or_concat ((Split s '\n').filter (survives isPidRunning pid)) with
    hk | ⟨ls, last, hk⟩
  · rw [hk]
    have hdead : survives isPidRunning pid [] = false := by
      by_contra hs
      have hs' : survives isPidRunning pid [] = true := by simpa using hs
      unfold survives at hs'
      rw [Bool.and_eq_true] at hs'
      exact (hlive _ hs'.2).1 rfl
    have e0 : TrimSpace (terminated []) = [] := by decide
    rw [e0]
    have e1 : (Split [] '\n').filter (survives isPidRunning pid) = [] := by
      simp [Split, hdead]
    rw [e1, e0]
  · rw [List.concat_eq_append] at hk
    rw [hk] at hsurv hnl
    rw [hk]
    have hheads : ∀ l ∈ ls ++ [last], ∃ c r, l = c :: r ∧ isSpace c = false :=
      fun l hl => head_of_survives isPidRunning pid hlive l (hsurv l hl)
    have hlastS : survives isPidRunning pid (List.rdropWhile isSpace last) = true :=
      survives_rdropWhile isPidRunning pid hlive last (hsurv last (by simp))
    have hlastNl : '\n' ∉ List.rdropWhile isSpace last := fun hm =>
      hnl last (by simp) ((List.rdropWhile_prefix isSpace last).subset hm)
    rw [TrimSpace_terminated ls last hheads,
      Split_terminated_append _ hlastNl ls (fun l hl => hnl l (by simp [hl]))]
    have hall : ∀ l ∈ ls ++ [List.rdropWhile isSpace last],
        survives isPidRunning pid l = true := by
      intro l hl
      rcases List.mem_append.mp hl with h | h
      · exact hsurv l (by simp [h])
      · rw [List.mem_singleton.mp h]
        exact hlastS
    rw [List.filter_eq_self.mpr hall,
      TrimSpace_terminated ls _
        (fun l hl => head_of_survives isPidRunning pid hlive l (hall l hl)),
      List.rdropWhile_idempotent]

/-! ## The registry: the claims -/

theorem toDigitsCore_chars (fuel : Nat) : ∀ (n : Nat) (acc : List Char),
    (∀ c ∈ acc, ∃ d, d < 10 ∧ c = Nat.digitChar d) →
    ∀ c ∈ Nat.toDigitsCore 10 fuel n acc, ∃ d, d < 10 ∧ c = Nat.digitChar d := by
  induction fuel with
  | zero =>
    intro n acc h
    simpa [Nat.toDigitsCore] using h
  | succ fuel ih =>
    intro n acc h
    have hacc : ∀ c ∈ Nat.digitChar (n % 10) :: acc, ∃ d, d < 10 ∧ c = Nat.digitChar d := by
      intro c hc
      rcases List.mem_cons.mp hc with e | e
      · exact ⟨n % 10, Nat.mod_lt _ (by decide), e⟩
      · exact h c e
    rw [Nat.toDigitsCore]
    split
    · exact hacc
    · exact ih _ _ hacc

theorem digitChar_ne_space_newline :
    ∀ d : Nat, d < 10 → Nat.digitChar d ≠ ' ' ∧ Nat.digitChar d ≠ '\n' := by decide

/-- The decimal writing of an `int` holds no space and no newline. -/
theorem Itoa_not_mem (n : Int) : ' ' ∉ Itoa n ∧ '\n' ∉ Itoa n := by
  have hd : ∀ c ∈ Nat.toDigits 10 n.natAbs, c ≠ ' ' ∧ c ≠ '\n' := by
    intro c hc
    obtain ⟨d, hd, e⟩ := toDigitsCore_chars _ _ [] (fun _ h => absurd h (List.not_mem_nil _)) c hc
    rw [e]
    exact digitChar_ne_space_newline d hd
  unfold Itoa
  split
  · constructor
    · intro h
      rcases List.mem_cons.mp h with e | e
      · exact absurd e (by decide)
      · exact (hd _ e).1 rfl
    · intro h
      rcases List.mem_cons.mp h with e | e
      · exact absurd e (by decide)
      · exact (hd _ e).2 rfl
  · exact ⟨fun h => (hd _ h).1 rfl, fun h => (hd _ h).2 rfl⟩

/-- A line that starts with an identity and a space has that identity as its
leading token. -/
theorem leadingToken_of_HasPrefix (line pidS : GoString) (hsp : ' ' ∉ pidS)
    (h : HasPrefix line (pidS ++ [' ']) = true) : leadingToken line = pidS := by
  obtain ⟨t, ht⟩ := (HasPrefix_iff _ _).mp h
  have hall : ∀ a ∈ pidS, (fun c => c != ' ') a = true := by
    intro a ha
    have : a ≠ ' ' := fun e => hsp (e ▸ ha)
    simpa using this
  rw [← ht]
  unfold leadingToken
  rw [List.append_assoc, @List.takeWhile_append_of_pos Char (fun c => c != ' ') _ _ hall]
  simp

/-- A line whose leading token is an identity, and that does not start with
the identity and a space, is the bare identity. -/
theorem eq_of_leadingToken (line pidS : GoString) (htok : leadingToken line = pidS)
    (hno : ¬ HasPrefix line (pidS ++ [' ']) = true) : line = pidS := by
  have hsplit : leadingToken line ++ line.dropWhile (fun c => c != ' ') = line :=
    List.takeWhile_append_dropWhile _ line
  cases hd : line.dropWhile (fun c => c != ' ') with
  | nil =>
    rw [hd, List.append_nil] at hsplit
    rw [← hsplit, htok]
  | cons x xs =>
    have hx : x = ' ' := by
      have := List.head?_dropWhile_not (fun c => c != ' ') line
      rw [hd] at this
      simpa using this
    exfalso
    apply hno
    rw [HasPrefix_iff]
    refine ⟨xs, ?_⟩
    rw [← hsplit, hd, htok, hx]
    simp

/-- Where the bare identity of `pid` is not a line that is kept, the test of
the code on a line is the test of the specification. -/
theorem survives_eq_spec (isPidRunning : GoString → Bool) (pid : Int) (line : GoString)
    (hown : isPidRunning (Itoa pid) = true → line ≠ Itoa pid) :
    survives isPidRunning pid line =
      (!belongsTo pid line && isPidRunning (leadingToken line)) := by
  unfold survives belongsTo
  by_cases hp : HasPrefix line (Itoa pid ++ [' ']) = true
  · have htok := leadingToken_of_HasPrefix line (Itoa pid) (Itoa_not_mem pid).1 hp
    simp [hp, htok]
  · by_cases htok : leadingToken line = Itoa pid
    · have hline := eq_of_leadingToken line (Itoa pid) htok hp
      have hdead : isPidRunning (Itoa pid) = false := by
        by_contra hl
        exact hown (by simpa using hl) hline
      simp [htok, hdead]
    · have hp' : HasPrefix line (Itoa pid ++ [' ']) = false := by simpa using hp
      simp [hp', htok]

/-- Where nothing is cut by the final trimming, the result of an upsert is
the surviving lines, each ended by a newline, then the own line. -/
theorem getNewTimersString_true_eq (isPidRunning : GoString → Bool)
    (current : GoString) (pid : Int) (text : GoString)
    (hlive : ∀ tok, isPidRunning tok = true → ∃ c rest, tok = c :: rest ∧ isSpace c = false)
    (htext : ∃ front c, text = front ++ [c] ∧ isSpace c = false) :
    getNewTimersString isPidRunning current pid text true =
      terminated (survivors isPidRunning current pid) ++ (Itoa pid ++ [' '] ++ text) := by
  obtain ⟨front, b, ht, hb⟩ := htext
  rw [getNewTimersString_true]
  have hhead : ∃ a rest, terminated (survivors isPidRunning current pid) ++
      (Itoa pid ++ [' '] ++ text) = a :: rest ∧ isSpace a = false := by
    cases hk : survivors isPidRunning current pid with
    | nil =>
      obtain ⟨c, rest, e, hc⟩ := Itoa_head pid
      exact ⟨c, rest ++ [' '] ++ text, by simp [terminated, e], hc⟩
    | cons k ks =>
      have hmem : k ∈ survivors isPidRunning current pid := by
        rw [hk]
        exact List.mem_cons_self _ _
      have hs : survives isPidRunning pid k = true := (List.mem_filter.mp hmem).2
      unfold survives at hs
      rw [Bool.and_eq_true] at hs
      obtain ⟨c, rest, e, hc⟩ := hlive _ hs.2
      obtain ⟨rest', e'⟩ := head_of_leadingToken k c rest e
      exact ⟨c, _, by rw [terminated_cons, e']; rfl, hc⟩
  obtain ⟨a, rest, e1, ha⟩ := hhead
  refine TrimSpace_eq_self a b rest
    (terminated (survivors isPidRunning current pid) ++ (Itoa pid ++ [' '] ++ front)) _ e1 ?_
    ha hb
  rw [ht]
  simp

/-- C2, amended: for every registry content, own pid `p`, display text that
is not empty, holds no newline and does not end with white space, and
liveness answer that reports alive only tokens that are not empty and do not
start with white space, where the trimmed content has no line that is the
bare identity of `p` while `p` is reported alive, the lines of
`getNewTimersString(current, p, text, true)` are exactly the lines of the
trimmed content that do not belong to `p` and whose leading token is
reported alive, in their order, followed by the line of `p`, its identity, a
space and the text; the result is these lines joined by newlines. -/
theorem getNewTimersString_upsertSpec (isPidRunning : GoString → Bool)
    (current : GoString) (pid : Int) (text : GoString)
    (hlive : ∀ tok, isPidRunning tok = true → ∃ c rest, tok = c :: rest ∧ isSpace c = false)
    (htext : ∃ front c, text = front ++ [c] ∧ isSpace c = false)
    (hline : '\n' ∉ text)
    (hown : isPidRunning (Itoa pid) = true → Itoa pid ∉ Split (TrimSpace current) '\n') :
    Split (getNewTimersString isPidRunning current pid text true) '\n' =
        upsertSpec isPidRunning current pid text ∧
      getNewTimersString isPidRunning current pid text true =
        List.intercalate ['\n'] (upsertSpec isPidRunning current pid text) := by
  have hk : survivors isPidRunning current pid = liveOthers isPidRunning current pid := by
    unfold survivors liveOthers
    apply List.filter_congr
    intro line hmem
    exact survives_eq_spec isPidRunning pid line (fun ha e => hown ha (e ▸ hmem))
  have hnl : ∀ l ∈ liveOthers isPidRunning current pid, '\n' ∉ l := fun l hl =>
    not_mem_of_mem_Split '\n' _ l (List.mem_filter.mp hl).1
  have hownNl : '\n' ∉ Itoa pid ++ [' '] ++ text := by
    intro h
    rcases List.mem_append.mp h with h | h
    · rcases List.mem_append.mp h with h | h
      · exact (Itoa_not_mem pid).2 h
      · exact absurd (List.mem_singleton.mp h) (by decide)
    · exact hline h
  rw [getNewTimersString_true_eq isPidRunning current pid text hlive htext, hk]
  unfold upsertSpec
  exact ⟨Split_terminated_append _ hownNl _ hnl, (intercalate_append_singleton _ _).symm⟩

/-- C2, amended, on the scenario of the claim: the registry holds the lines
`100 foo` and `200 bar`, process 100 is dead and process 200 alive, and
process 300 writes `baz`; the result is `200 bar`, then `300 baz`. -/
theorem getNewTimersString_upsertSpec_witness :
    (Split (getNewTimersString (aliveOnly ["200".toList]) "100 foo\n200 bar".toList 300
          "baz".toList true) '\n' =
        upsertSpec (aliveOnly ["200".toList]) "100 foo\n200 bar".toList 300 "baz".toList ∧
      getNewTimersString (aliveOnly ["200".toList]) "100 foo\n200 bar".toList 300
          "baz".toList true =
        List.intercalate ['\n']
          (upsertSpec (aliveOnly ["200".toList]) "100 foo\n200 bar".toList 300
            "baz".toList)) ∧
    upsertSpec (aliveOnly ["200".toList]) "100 foo\n200 bar".toList 300 "baz".toList =
      ["200 bar".toList, "300 baz".toList] ∧
    getNewTimersString (aliveOnly ["200".toList]) "100 foo\n200 bar".toList 300
        "baz".toList true = "200 bar\n300 baz".toList :=
  ⟨getNewTimersString_upsertSpec (aliveOnly ["200".toList]) "100 foo\n200 bar".toList 300
      "baz".toList
      (fun tok h => by
        have e : tok = "200".toList := by simpa [aliveOnly] using h
        subst e
        exact ⟨'2', "00".toList, rfl, by decide⟩)
      ⟨"ba".toList, 'z', rfl, by decide⟩
      (by decide)
      (fun h => absurd h (by decide)),
    by decide, by decide⟩

/-- C2 as stated fails in four ways. With an empty text, in the scenario of
the claim, the last line is `300`, not the identity, a space and the text:
the output is trimmed. With every token reported alive, a first kept line
` 200 bar` comes out as `200 bar`: the trimming cuts its white space. With
the text `x`, newline, `y`, the text is not one line. And with process 300
alive and the content `300`, that line belongs to process 300 but does not
start with `300` and a space, so that it is kept (the defect of C6). -/
theorem getNewTimersString_not_upsertSpec :
    (getNewTimersString (aliveOnly ["200".toList]) "100 foo\n200 bar".toList 300 [] true =
        "200 bar\n300".toList ∧
      upsertSpec (aliveOnly ["200".toList]) "100 foo\n200 bar".toList 300 [] =
        ["200 bar".toList, "300 ".toList] ∧
      Split (getNewTimersString (aliveOnly ["200".toList]) "100 foo\n200 bar".toList 300 []
          true) '\n' ≠
        upsertSpec (aliveOnly ["200".toList]) "100 foo\n200 bar".toList 300 []) ∧
    (getNewTimersString (fun _ => true) "300 old\n 200 bar".toList 300 "baz".toList true =
        "200 bar\n300 baz".toList ∧
      upsertSpec (fun _ => true) "300 old\n 200 bar".toList 300 "baz".toList =
        [" 200 bar".toList, "300 baz".toList] ∧
      Split (getNewTimersString (fun _ => true) "300 old\n 200 bar".toList 300 "baz".toList
          true) '\n' ≠
        upsertSpec (fun _ => true) "300 old\n 200 bar".toList 300 "baz".toList) ∧
    (getNewTimersString (aliveOnly ["200".toList]) "100 foo\n200 bar".toList 300
          "x\ny".toList true = "200 bar\n300 x\ny".toList ∧
      upsertSpec (aliveOnly ["200".toList]) "100 foo\n200 bar".toList 300 "x\ny".toList =
        ["200 bar".toList, "300 x\ny".toList] ∧
      Split (getNewTimersString (aliveOnly ["200".toList]) "100 foo\n200 bar".toList 300
          "x\ny".toList true) '\n' ≠
        upsertSpec (aliveOnly ["200".toList]) "100 foo\n200 bar".toList 300
          "x\ny".toList) ∧
    (getNewTimersString (aliveOnly ["300".toList]) "300".toList 300 "baz".toList true =
        "300\n300 baz".toList ∧
      upsertSpec (aliveOnly ["300".toList]) "300".toList 300 "baz".toList =
        ["300 baz".toList] ∧
      Split (getNewTimersString (aliveOnly ["300".toList]) "300".toList 300 "baz".toList
          true) '\n' ≠
        upsertSpec (aliveOnly ["300".toList]) "300".toList 300 "baz".toList) := by
  refine ⟨⟨by decide, by decide, by decide⟩, ⟨by decide, by decide, by decide⟩,
    ⟨by decide, by decide, by decide⟩, ⟨by decide, by decide, by decide⟩⟩

/-- C7, amended: for every registry content `c`, own pid `p` and liveness
answer that reports alive only tokens that are not empty and that
`TrimSpace` leaves as they are (no white space at either end), with
`g(c) = getNewTimersString(c, p, "", false)`, `g(g(c)) = g(c)`. -/
theorem removeSelf_idempotent (isPidRunning : GoString → Bool) (current : GoString)
    (pid : Int)
    (hlive : ∀ tok, isPidRunning tok = true → tok ≠ [] ∧ TrimSpace tok = tok) :
    getNewTimersString isPidRunning
        (getNewTimersString isPidRunning current pid [] false) pid [] false =
      getNewTimersString isPidRunning current pid [] false := by
  simp only [getNewTimersString_false, survivors, TrimSpace_idem]
  exact remove_twice isPidRunning pid hlive (TrimSpace current)

/-- C7, amended, on a registry with the lines `100 foo`, `300 baz` and
`200 bar`, where only process 200 is alive and process 300 removes itself:
the first removal leaves `200 bar`, the second changes nothing. -/
theorem removeSelf_idempotent_witness :
    getNewTimersString (aliveOnly ["200".toList]) "100 foo\n300 baz\n200 bar".toList 300 []
        false = "200 bar".toList ∧
    getNewTimersString (aliveOnly ["200".toList])
        (getNewTimersString (aliveOnly ["200".toList]) "100 foo\n300 baz\n200 bar".toList
          300 [] false) 300 [] false =
      getNewTimersString (aliveOnly ["200".toList]) "100 foo\n300 baz\n200 bar".toList 300 []
        false :=
  ⟨by decide,
    removeSelf_idempotent (aliveOnly ["200".toList]) "100 foo\n300 baz\n200 bar".toList 300
      (fun tok h => by
        have e : tok = "200".toList := by simpa [aliveOnly] using h
        subst e
        exact ⟨by decide, by decide⟩)⟩

/-- C7 as stated fails for a liveness answer that takes a token with a tab
in front of the identity of the live process 300 for that process: on the
content `300 a`, newline, tab, `300 b`, the removal by process 300 keeps the
second line and trims it to `300 b`; the second removal drops that line. -/
theorem removeSelf_not_idempotent :
    getNewTimersString (aliveOnly ["300".toList, "\t300".toList]) "300 a\n\t300 b".toList
        300 [] false = "300 b".toList ∧
    getNewTimersString (aliveOnly ["300".toList, "\t300".toList])
        (getNewTimersString (aliveOnly ["300".toList, "\t300".toList])
          "300 a\n\t300 b".toList 300 [] false) 300 [] false = [] ∧
    getNewTimersString (aliveOnly ["300".toList, "\t300".toList])
        (getNewTimersString (aliveOnly ["300".toList, "\t300".toList])
          "300 a\n\t300 b".toList 300 [] false) 300 [] false ≠
      getNewTimersString (aliveOnly ["300".toList, "\t300".toList]) "300 a\n\t300 b".toList
        300 [] false := by
  refine ⟨by decide, by decide, by decide⟩

/-- C6 fails on the code. From the empty registry, process 300 (alive) writes
the empty text: the content is the line `300`, and every token heads at most
one line of it. Process 300 then writes `baz`: the line `300` does not start
with `300` and a space, it is kept, and the content has two lines headed by
`300`. In the same way a display text with a newline in it adds a second line
headed by the live process 200. -/
theorem pid_heads_two_lines :
    getNewTimersString (aliveOnly ["300".toList]) [] 300 [] true = "300".toList ∧
    (∀ tok, linesHeadedBy "300".toList tok ≤ 1) ∧
    getNewTimersString (aliveOnly ["300".toList]) "300".toList 300 "baz".toList true =
      "300\n300 baz".toList ∧
    linesHeadedBy "300\n300 baz".toList "300".toList = 2 ∧
    getNewTimersString (aliveOnly ["200".toList, "300".toList]) "200 bar".toList 300
        "x\n200 y 501".toList true = "200 bar\n300 x\n200 y 501".toList ∧
    linesHeadedBy "200 bar\n300 x\n200 y 501".toList "200".toList = 2 := by
  refine ⟨by decide, ?_, by decide, by decide, by decide, by decide⟩
  intro tok
  unfold linesHeadedBy
  exact (List.length_filter_le _ _).trans (by decide)

end MenuCountdown
